import Mathlib

/-!
# Verification of the QUBEKit parameter-derivation modules

Shallow embedding, over the real and complex numbers, of the two numerical
modules of the QUBEKit repository:

* `QUBEKit/mod_seminario.py` — the Modified Seminario Method: bond and angle
  force constants from 3x3 Hessian sub-block eigen-data;
* `QUBEKit/lennard_jones.py` — the Lennard-Jones derivation: sigma/epsilon
  from AIM volumes, the polar-hydrogen correction and symmetry averaging.

Python floats are modelled as real numbers and the complex eigen-data
(`dtype=complex` in the source) as complex numbers.  Division by zero follows
the Lean convention `x / 0 = 0`; where the source would produce IEEE `nan`
(the colinear-bond case inside `unit_vector_n`) the embedding is only used at
inputs where no division by zero occurs, and theorems about the branch
structure are stated at such inputs.  `x ** 0.5`, `x ** (1/3)` and
`x ** (1/6)` on nonnegative floats are modelled by `Real.sqrt` / `Real.rpow`.

Definitions mirror the source functions statement by statement and keep the
source's names.  All theorems come after all definitions.
-/

namespace QUBEKit

/-! ## Vectors (numpy 3-vectors used by `mod_seminario.py`) -/

/-- A 3-component real vector (a row of the numpy `coords` array). -/
structure Vec3 where
  x : ℝ
  y : ℝ
  z : ℝ

/-- Componentwise difference, `coords[b, :] - coords[a, :]`. -/
def Vec3.sub (u v : Vec3) : Vec3 := ⟨u.x - v.x, u.y - v.y, u.z - v.z⟩

/-- numpy `dot` of two real 3-vectors. -/
def Vec3.dot (u v : Vec3) : ℝ := u.x * v.x + u.y * v.y + u.z * v.z

/-- numpy `cross` of two 3-vectors. -/
def Vec3.cross (u v : Vec3) : Vec3 :=
  ⟨u.y * v.z - u.z * v.y, u.z * v.x - u.x * v.z, u.x * v.y - u.y * v.x⟩

/-- numpy `linalg.norm` of a 3-vector. -/
noncomputable def Vec3.norm (v : Vec3) : ℝ := Real.sqrt (v.dot v)

/-- Division of a vector by a scalar, `v / linalg.norm(v)` style. -/
noncomputable def Vec3.sdiv (v : Vec3) (c : ℝ) : Vec3 := ⟨v.x / c, v.y / c, v.z / c⟩

/-- Python `sum(u_n)`: the sum of the three components. -/
def Vec3.sum3 (v : Vec3) : ℝ := v.x + v.y + v.z

/-- Component access `v[i]` for `i in range(3)`. -/
def Vec3.nth (v : Vec3) : Fin 3 → ℝ := ![v.x, v.y, v.z]

/-- The zero vector. -/
def Vec3.zero : Vec3 := ⟨0, 0, 0⟩

/-! ## `ModSemMaths` static methods (`mod_seminario.py`, lines 15–133)

Eigen-data of the 3x3 Hessian sub-blocks is an input to every function below
(the orchestrator obtains it from `numpy.linalg.eig`, which is external to
this embedding).  `eigenvals a b i` is `eigenvals[a, b, i]`;
`eigenvecs a b r i` is component `r` of eigenvector `i` of block `(a, b)`,
i.e. `eigenvecs[r, i, a, b]` in the source's layout.  Both are complex, as in
the source (`dtype=complex`). -/

/-- Eigenvalue table `eigenvals[a, b, :]`. -/
abbrev EigVals := ℕ → ℕ → Fin 3 → ℂ

/-- Eigenvector table: `EigVecs a b` is the 3x3 block whose column `i` is the
`i`-th eigenvector of Hessian sub-block `(a, b)`. -/
abbrev EigVecs := ℕ → ℕ → Fin 3 → Fin 3 → ℂ

/-- `ModSemMaths.unit_vector_n(u_bc, u_ab)`:
`cross(u_bc, u_ab) / linalg.norm(cross(u_bc, u_ab))`. -/
noncomputable def unit_vector_n (u_bc u_ab : Vec3) : Vec3 :=
  (u_bc.cross u_ab).sdiv (u_bc.cross u_ab).norm

/-- `ModSemMaths.vector_along_bond(coords, atom_a, atom_b)`:
the normalized displacement `coords[atom_b] - coords[atom_a]`. -/
noncomputable def vector_along_bond (coords : ℕ → Vec3) (atom_a atom_b : ℕ) : Vec3 :=
  ((coords atom_b).sub (coords atom_a)).sdiv ((coords atom_b).sub (coords atom_a)).norm

/-- `ModSemMaths.u_pa_from_angles(atom_a, atom_b, atom_c, coords)`:
the vector in plane abc perpendicular to the a-b bond. -/
noncomputable def u_pa_from_angles (atom_a atom_b atom_c : ℕ) (coords : ℕ → Vec3) : Vec3 :=
  let u_ab := vector_along_bond coords atom_a atom_b
  let u_cb := vector_along_bond coords atom_c atom_b
  let u_n := unit_vector_n u_cb u_ab
  unit_vector_n u_n u_ab

/-- `ModSemMaths.dot_product(u_pa, eig_ab)`:
`sum(u_pa[i] * eig_ab[i].conjugate() for i in range(3))`. -/
noncomputable def dot_product (u_pa : Vec3) (eig_ab : Fin 3 → ℂ) : ℂ :=
  ∑ i : Fin 3, (u_pa.nth i : ℂ) * (starRingEnd ℂ) (eig_ab i)

/-- numpy `dot` of a real 3-vector with a complex 3-vector (no conjugation),
as used in `force_constant_bond`. -/
noncomputable def dot_rc (u : Vec3) (v : Fin 3 → ℂ) : ℂ :=
  ∑ i : Fin 3, (u.nth i : ℂ) * v i

/-- `ModSemMaths.force_constant_bond(atom_a, atom_b, eigenvals, eigenvecs, coords)`:
`-0.5 * sum(eigenvals_ab[i] * abs(dot(unit_vectors_ab, eigenvecs_ab[:, i])) for i in range(3))`. -/
noncomputable def force_constant_bond (atom_a atom_b : ℕ) (eigenvals : EigVals)
    (eigenvecs : EigVecs) (coords : ℕ → Vec3) : ℂ :=
  let eigenvals_ab := eigenvals atom_a atom_b
  let eigenvecs_ab := eigenvecs atom_a atom_b
  let unit_vectors_ab := vector_along_bond coords atom_a atom_b
  (-0.5) * ∑ i : Fin 3,
    eigenvals_ab i * ((Complex.abs (dot_rc unit_vectors_ab (fun r => eigenvecs_ab r i)) : ℝ) : ℂ)

/-- The weighted projection sum appearing as `sum_first` / `sum_second` in
both `force_constant_angle` and `f_c_a_special_case`:
`sum(lam[i] * abs(dot_product(u, M[:, i])) for i in range(3))`. -/
noncomputable def proj_sum (lam : Fin 3 → ℂ) (M : Fin 3 → Fin 3 → ℂ) (u : Vec3) : ℂ :=
  ∑ i : Fin 3, lam i * ((Complex.abs (dot_product u (fun r => M r i)) : ℝ) : ℂ)

/-- `math.degrees`. -/
noncomputable def degrees (x : ℝ) : ℝ := x * 180 / Real.pi

/-- The trial normal direction used inside `f_c_a_special_case` for the loop
variable `theta in range(n_samples)` (an integer, read in radians):
`[sin(theta)*cos(theta), sin(theta)*sin(theta), cos(theta)]`. -/
noncomputable def special_case_u_n (theta : ℕ) : Vec3 :=
  ⟨Real.sin theta * Real.cos theta, Real.sin theta * Real.sin theta, Real.cos theta⟩

/-- One iteration of the sampling loop of `ModSemMaths.f_c_a_special_case`:
the value written to `k_theta_array[theta]`. -/
noncomputable def special_case_trial_k (u_ab u_cb : Vec3) (bond_lens : ℝ × ℝ)
    (eigenvals : (Fin 3 → ℂ) × (Fin 3 → ℂ))
    (eigenvecs : (Fin 3 → Fin 3 → ℂ) × (Fin 3 → Fin 3 → ℂ)) (theta : ℕ) : ℝ :=
  let u_n := special_case_u_n theta
  let u_pa := unit_vector_n u_n u_ab
  let u_pc := unit_vector_n u_cb u_n
  let sum_first : ℂ := proj_sum eigenvals.1 eigenvecs.1 u_pa
  let sum_second : ℂ := proj_sum eigenvals.2 eigenvecs.2 u_pc
  let k_theta_i : ℂ :=
    1 / ((bond_lens.1 : ℂ) ^ 2 * sum_first) + 1 / ((bond_lens.2 : ℂ) ^ 2 * sum_second)
  Complex.abs ((1 / k_theta_i) * 0.5)

/-- `ModSemMaths.f_c_a_special_case(u_ab, u_cb, bond_lens, eigenvals, eigenvecs)`:
200 samples, `numpy.average` of the trial force constants, and
`theta_0 = acos(dot(u_ab, u_cb))` (radians: no `degrees` call in this branch). -/
noncomputable def f_c_a_special_case (u_ab u_cb : Vec3) (bond_lens : ℝ × ℝ)
    (eigenvals : (Fin 3 → ℂ) × (Fin 3 → ℂ))
    (eigenvecs : (Fin 3 → Fin 3 → ℂ) × (Fin 3 → Fin 3 → ℂ)) : ℝ × ℝ :=
  let n_samples : ℕ := 200
  let k_theta_array : List ℝ :=
    (List.range n_samples).map (special_case_trial_k u_ab u_cb bond_lens eigenvals eigenvecs)
  (k_theta_array.sum / (n_samples : ℝ), Real.arccos (u_ab.dot u_cb))

/-- `ModSemMaths.force_constant_angle(atom_a, atom_b, atom_c, bond_lens,
eigenvals, eigenvecs, coords, scalings)`.

The source branches on Python truthiness of `sum(u_n)`:
`if sum(u_n): <special case> else: <projection branch>`, i.e. the 200-sample
special case runs whenever the component sum of `u_n` is nonzero (on IEEE
floats, also when it is `nan`), and the projection branch runs only when the
sum is exactly zero. -/
noncomputable def force_constant_angle (atom_a atom_b atom_c : ℕ) (bond_lens : ℕ → ℕ → ℝ)
    (eigenvals : EigVals) (eigenvecs : EigVecs) (coords : ℕ → Vec3)
    (scalings : ℝ × ℝ) : ℝ × ℝ :=
  let u_ab := vector_along_bond coords atom_a atom_b
  let u_cb := vector_along_bond coords atom_c atom_b
  let bond_len_ab := bond_lens atom_a atom_b
  let eigenvals_ab := eigenvals atom_a atom_b
  let eigenvecs_ab := eigenvecs atom_a atom_b
  let bond_len_bc := bond_lens atom_b atom_c
  let eigenvals_cb := eigenvals atom_c atom_b
  let eigenvecs_cb := eigenvecs atom_c atom_b
  let u_n := unit_vector_n u_cb u_ab
  if u_n.sum3 = 0 then
    let u_pa := unit_vector_n u_n u_ab
    let u_pc := unit_vector_n u_cb u_n
    let sum_first : ℂ := proj_sum eigenvals_ab eigenvecs_ab u_pa / (scalings.1 : ℂ)
    let sum_second : ℂ := proj_sum eigenvals_cb eigenvecs_cb u_pc / (scalings.2 : ℂ)
    let k_theta : ℂ :=
      1 / ((bond_len_ab : ℂ) ^ 2 * sum_first) + 1 / ((bond_len_bc : ℂ) ^ 2 * sum_second)
    (Complex.abs ((1 / k_theta) * 0.5), degrees (Real.arccos (u_ab.dot u_cb)))
  else
    f_c_a_special_case u_ab u_cb (bond_len_ab, bond_len_bc)
      (eigenvals_ab, eigenvals_cb) (eigenvecs_ab, eigenvecs_cb)

/-- Negation of column `i0` of a 3x3 complex block: the sign flip of one
eigenvector of one Hessian sub-block. -/
def negCol (i0 : Fin 3) (M : Fin 3 → Fin 3 → ℂ) : Fin 3 → Fin 3 → ℂ :=
  fun r c => if c = i0 then -M r c else M r c

/-- The eigenvector table with the sign of eigenvector `i0` of block `(p, q)`
flipped and everything else unchanged. -/
def flip_eigenvec (p q : ℕ) (i0 : Fin 3) (ev : EigVecs) : EigVecs :=
  fun a b => if a = p ∧ b = q then negCol i0 (ev a b) else ev a b

/-- Modelled from the spec: the trial normal parameterized "by an angle swept
over [0, 2π)" — a uniform sweep `theta = 2 * pi * i / 200` — for comparison
with the source's `special_case_u_n`, whose `theta` is the integer loop
index. -/
noncomputable def sweep_u_n (i : ℕ) : Vec3 :=
  ⟨Real.sin (2 * Real.pi * i / 200) * Real.cos (2 * Real.pi * i / 200),
   Real.sin (2 * Real.pi * i / 200) * Real.sin (2 * Real.pi * i / 200),
   Real.cos (2 * Real.pi * i / 200)⟩

/-- Coordinates of a right-angle triatomic (flanking bonds perpendicular, far
from colinear) used to probe the branch condition of `force_constant_angle`:
atoms at (1,0,0), (0,0,0), (0,1,0). -/
def coords_perp : ℕ → Vec3 :=
  fun n => if n = 0 then ⟨1, 0, 0⟩ else if n = 1 then ⟨0, 0, 0⟩ else ⟨0, 1, 0⟩

/-- Coordinates of a four-atom star (atoms 1, 3, 4 all bonded to the central
atom 2) used to exhibit the scaling-factor routing of `calculate_angles`:
atoms at (1,0,0), (0,0,0), (0,1,0), (1,1,0). -/
def coords_star : ℕ → Vec3 :=
  fun n =>
    if n = 0 then ⟨1, 0, 0⟩
    else if n = 1 then ⟨0, 0, 0⟩
    else if n = 2 then ⟨0, 1, 0⟩
    else ⟨1, 1, 0⟩

/-! ## `ModSeminario.calculate_bonds` (`mod_seminario.py`, lines 280–308) -/

/-- The per-bond force constants `k_b` written by `calculate_bonds`: for each
1-based `bond` in `bond_list`,
`real((ab + ba) / 2) * vib_scaling ** 2` where `ab`, `ba` are
`force_constant_bond` at the two orderings. -/
noncomputable def calculate_bonds_kb (bond_list : List (ℕ × ℕ)) (eigenvals : EigVals)
    (eigenvecs : EigVecs) (coords : ℕ → Vec3) (vib_scaling : ℝ) : List ℝ :=
  bond_list.map (fun bond =>
    let ab := force_constant_bond (bond.1 - 1) (bond.2 - 1) eigenvals eigenvecs coords
    let ba := force_constant_bond (bond.2 - 1) (bond.1 - 1) eigenvals eigenvecs coords
    ((ab + ba) / 2).re * vib_scaling ^ 2)

/-! ## `ModSeminario.calculate_angles` scaffolding (`mod_seminario.py`, lines 179–278)

A row of `central_atoms_angles[coord]` is `[other_end, third_atom, angle_index]`
(0-based atoms).  Angles in `angle_list` are 1-based triples `(a, b, c)` with
`b` central. -/

/-- One entry of `central_atoms_angles`. -/
abbrev Row := ℕ × ℕ × ℕ

/-- `central_atoms_angles[coord]` before sorting: for each `(count, angle)` in
`enumerate(angle_list)` with `coord == angle[1] - 1`, the two rows
`[angle[0]-1, angle[2]-1, count]` and `[angle[2]-1, angle[0]-1, count]`.
(The guard is written `coord + 1 = b`, equivalent for the 1-based central
index `b ≥ 1` supplied by the topology.) -/
def central_rows (angle_list : List (ℕ × ℕ × ℕ)) (coord : ℕ) : List Row :=
  angle_list.enum.flatMap (fun ca =>
    if coord + 1 = ca.2.2.1 then
      [(ca.2.1 - 1, ca.2.2.2 - 1, ca.1), (ca.2.2.2 - 1, ca.2.1 - 1, ca.1)]
    else [])

/-- The sort key order of `sorted(central_atoms_angles[coord], key=itemgetter(0))`. -/
def rowLE (r s : Row) : Prop := r.1 ≤ s.1

instance : DecidableRel rowLE := fun r s => Nat.decLe r.1 s.1

instance : IsTotal Row rowLE := ⟨fun r s => Nat.le_total r.1 s.1⟩

instance : IsTrans Row rowLE := ⟨fun _ _ _ => Nat.le_trans⟩

/-- `sorted(central_atoms_angles[coord], key=itemgetter(0))` — a stable sort
by the first component, as Python's `sorted`. -/
def sorted_rows (angle_list : List (ℕ × ℕ × ℕ)) (coord : ℕ) : List Row :=
  List.insertionSort rowLE (central_rows angle_list coord)

/-- `unit_pa_all_angles[i][j]`, recomputed from its row:
`u_pa_from_angles(central_atoms_angles[i][j][0], i, central_atoms_angles[i][j][1], coords)`. -/
noncomputable def row_upa (coords : ℕ → Vec3) (i : ℕ) (r : Row) : Vec3 :=
  u_pa_from_angles r.1 i r.2.1 coords

/-- `scaling_factor_all_angles[i][j][0]` (`mod_seminario.py` lines 222–247):
the two `while` loops walk forwards and backwards from row `j` over the
consecutive rows sharing the same first atom, accumulate
`abs(dot(u_pa_j, u_pa_other)) ** 2`, and the factor is
`1 + extra_contribs / (m + n - 2)` when any neighbour was found, else `1`. -/
noncomputable def scaling_factor (coords : ℕ → Vec3) (i : ℕ) (rows : List Row) (j : ℕ) : ℝ :=
  let rj := rows.getD j (0, 0, 0)
  let upj := row_upa coords i rj
  let fwd := (rows.drop (j + 1)).takeWhile (fun s => s.1 == rj.1)
  let bwd := ((rows.take j).reverse).takeWhile (fun s => s.1 == rj.1)
  let neigh := fwd ++ bwd
  if neigh.length = 0 then 1
  else 1 + (neigh.map (fun s => |upj.dot (row_upa coords i s)| ^ 2)).sum / (neigh.length : ℝ)

/-- The single list shared by every entry of
`scaling_factors_angles_list = [[]] * len(angle_list)` (`mod_seminario.py`
line 249): `[[]] * n` produces `n` references to one list, so the appends of
line 254 all land in the same list, in `(i, j)` iteration order. -/
noncomputable def shared_scaling_list (angle_list : List (ℕ × ℕ × ℕ)) (coords : ℕ → Vec3)
    (n_atoms : ℕ) : List ℝ :=
  (List.range n_atoms).flatMap (fun i =>
    let rows := sorted_rows angle_list i
    (List.range rows.length).map (scaling_factor coords i rows))

/-- The `scalings` pair the source passes to `force_constant_angle` for an
angle: `[scaling_factors_angles_list[i][0], scaling_factors_angles_list[i][1]]`
— because of the aliasing this is the first two entries of the shared list,
identical for every angle index `i`. -/
noncomputable def code_scalings (angle_list : List (ℕ × ℕ × ℕ)) (coords : ℕ → Vec3)
    (n_atoms : ℕ) : ℝ × ℝ :=
  ((shared_scaling_list angle_list coords n_atoms).getD 0 0,
   (shared_scaling_list angle_list coords n_atoms).getD 1 0)

/-- Modelled from the spec: the scaling factors that were *derived for angle*
`k`'s own flanking bonds — the appends of line 254 routed to the sublist of
the angle each factor belongs to (`scaling_factor_all_angles[i][j][1]`), as
the source's comment "Orders the scaling factors according to the angle list"
describes.  Used to compare against `code_scalings`. -/
noncomputable def own_scalings (angle_list : List (ℕ × ℕ × ℕ)) (coords : ℕ → Vec3)
    (n_atoms : ℕ) (k : ℕ) : List ℝ :=
  (List.range n_atoms).flatMap (fun i =>
    let rows := sorted_rows angle_list i
    (List.range rows.length).filterMap (fun j =>
      if (rows.getD j (0, 0, 0)).2.2 = k then some (scaling_factor coords i rows j) else none))

/-! ## `lennard_jones.py` -/

/-- The chemical elements with reference constants in `elem_dict`
(`lennard_jones.py` lines 143–152). -/
inductive Element where
  | H | C | N | O | F | S | Cl | Br
deriving DecidableEq

instance : Inhabited Element := ⟨Element.H⟩

/-- `elem_dict`: `[vfree, bfree, rfree]` per element. -/
noncomputable def elem_dict : Element → ℝ × ℝ × ℝ
  | .H => (7.6, 6.5, 1.64)
  | .C => (34.4, 46.6, 2.08)
  | .N => (25.9, 24.2, 1.72)
  | .O => (22.1, 15.6, 1.60)
  | .F => (18.2, 9.5, 1.58)
  | .S => (75.2, 134.0, 2.00)
  | .Cl => (65.1, 94.6, 1.88)
  | .Br => (95.7, 162.0, 1.96)

/-- A `ddec_data` row before `append_ais_bis`: the fields the Lennard-Jones
math reads (`atom[1]` element, `atom[5]` charge, `atom[-1]` volume). -/
structure RawAtom where
  element : Element
  charge : ℝ
  vol : ℝ

instance : Inhabited RawAtom := ⟨⟨Element.H, 0, 0⟩⟩

/-- A `ddec_data` row after `append_ais_bis` appended `[r_aim, b_i, a_i]`:
`atom[-3]`, `atom[-2]`, `atom[-1]` of the extended row. -/
structure DdecAtom where
  element : Element
  charge : ℝ
  vol : ℝ
  r_aim : ℝ
  b_i : ℝ
  a_i : ℝ

instance : Inhabited DdecAtom := ⟨⟨Element.H, 0, 0, 0, 0, 0⟩⟩

/-- An entry of `non_bonded_force`: `[charge, sigma, epsilon]` (held as
strings of floats in the source; the values are modelled). -/
abbrev NBF := ℝ × ℝ × ℝ

/-- `LennardJones.append_ais_bis` (`lennard_jones.py` lines 133–164):
`r_aim = rfree * (vol / vfree) ** (1/3)`, `b_i = bfree * (vol / vfree) ** 2`,
`a_i = 32 * b_i * r_aim ** 6`. -/
noncomputable def append_ais_bis (l : List RawAtom) : List DdecAtom :=
  l.map (fun atom =>
    let vfree := (elem_dict atom.element).1
    let bfree := (elem_dict atom.element).2.1
    let rfree := (elem_dict atom.element).2.2
    let r_aim := rfree * (atom.vol / vfree) ^ ((1 : ℝ) / 3)
    let b_i := bfree * (atom.vol / vfree) ^ (2 : ℕ)
    let a_i := 32 * b_i * r_aim ^ (6 : ℕ)
    ⟨atom.element, atom.charge, atom.vol, r_aim, b_i, a_i⟩)

/-- `LennardJones.calculate_sig_eps` (`lennard_jones.py` lines 166–191):
`sigma = epsilon = 0` when `a_i == 0`, otherwise
`sigma = (a_i / b_i) ** (1/6) * 0.1` and
`epsilon = b_i ** 2 / (4 * a_i) * 57.65240039`; the entry keeps `atom[5]`
(the charge). -/
noncomputable def calculate_sig_eps (ddec : List DdecAtom) : List NBF :=
  ddec.map (fun atom =>
    if atom.a_i = 0 then (atom.charge, 0, 0)
    else (atom.charge, (atom.a_i / atom.b_i) ^ ((1 : ℝ) / 6) * 0.1,
          atom.b_i ^ 2 / (4 * atom.a_i) * 57.65240039))

/-- Whether the positional label `str(pos) + element` contains `'O'`, `'N'`
or `'S'`; on the supported elements this is exactly membership in {O, N, S}
(digits contribute no letters). -/
def is_ons : Element → Bool
  | .O => true
  | .N => true
  | .S => true
  | _ => false

/-- Whether the positional label contains `'H'`; on the supported elements
this is exactly being hydrogen. -/
def is_hydrogen : Element → Bool
  | .H => true
  | _ => false

/-- Element of the 1-based atom number `pos` (the `positions` dictionary of
`correct_polar_hydrogens`). -/
def elem_at (ddec : List DdecAtom) (pos : ℕ) : Element :=
  ((ddec.getD (pos - 1) default).element)

/-- The `polars` pair list (`lennard_jones.py` lines 213–221): bonded pairs
where one side is O/N/S and the other is H, kept in topology orientation. -/
def polars (edges : List (ℕ × ℕ)) (ddec : List DdecAtom) : List (ℕ × ℕ) :=
  edges.filter (fun pair =>
    (is_ons (elem_at ddec pair.1) && is_hydrogen (elem_at ddec pair.2)) ||
    (is_ons (elem_at ddec pair.2) && is_hydrogen (elem_at ddec pair.1)))

/-- `(polar_h_pos, polar_son_pos)` — 0-based — for a polar pair
(`lennard_jones.py` lines 230–235). -/
def polar_h_son (ddec : List DdecAtom) (pair : ℕ × ℕ) : ℕ × ℕ :=
  if is_hydrogen (elem_at ddec pair.1) then (pair.1 - 1, pair.2 - 1)
  else (pair.2 - 1, pair.1 - 1)

/-- `atom[-2] = atom[-2] ** 0.5` for every row (line 225). -/
noncomputable def sqrt_bis (ddec : List DdecAtom) : List DdecAtom :=
  ddec.map (fun a => {a with b_i := Real.sqrt a.b_i})

/-- One iteration of the polar loop (lines 228–239):
`ddec_data[son][-2] += ddec_data[h][-2]; ddec_data[h][-2] = 0`. -/
noncomputable def donate (ddec : List DdecAtom) (pair : ℕ × ℕ) : List DdecAtom :=
  let hp := (polar_h_son ddec pair).1
  let sp := (polar_h_son ddec pair).2
  let d1 := ddec.modify (fun a => {a with b_i := a.b_i + (ddec.getD hp default).b_i}) sp
  d1.modify (fun a => {a with b_i := 0}) hp

/-- `atom[-2] *= atom[-2]` for every row (lines 242–243). -/
noncomputable def square_bis (ddec : List DdecAtom) : List DdecAtom :=
  ddec.map (fun a => {a with b_i := a.b_i * a.b_i})

/-- `atom[-1] = 32 * atom[-2] * (atom[-3] ** 6)` for every row (lines 246–247). -/
noncomputable def recompute_ais (ddec : List DdecAtom) : List DdecAtom :=
  ddec.map (fun a => {a with a_i := 32 * a.b_i * a.r_aim ^ (6 : ℕ)})

/-- The `non_bonded_force` update loop (lines 250–259): at each position, when
the new `a_i` is zero both the sigma slot and epsilon are set to `0`
(`epsilon, self.non_bonded_force[pos][1] = 0, str(0)`); otherwise epsilon is
recomputed from the new `b_i`, `a_i` and the sigma slot is left as it was;
the charge slot is rewritten from `atom[5]`. -/
noncomputable def update_nbf : List DdecAtom → List NBF → List NBF
  | [], nbf => nbf
  | _ :: _, [] => []
  | atom :: rest, entry :: nrest =>
    (if atom.a_i = 0 then ((atom.charge, 0, 0) : NBF)
     else (atom.charge, entry.2.1, atom.b_i ^ 2 / (4 * atom.a_i) * 57.65240039)) ::
    update_nbf rest nrest

/-- `LennardJones.correct_polar_hydrogens` (`lennard_jones.py` lines 193–259),
acting on the `(ddec_data, non_bonded_force)` state. -/
noncomputable def correct_polar_hydrogens (edges : List (ℕ × ℕ)) (ddec : List DdecAtom)
    (nbf : List NBF) : List DdecAtom × List NBF :=
  let ps := polars edges ddec
  let d2 := ps.foldl donate (sqrt_bis ddec)
  let d4 := recompute_ais (square_bis d2)
  (d4, update_nbf d4 nbf)

/-- One `atom_set` iteration of `apply_symmetrisation` (`lennard_jones.py`
lines 267–277): append the set's current values to the running lists (which
are only reset per `sym_set`, not per `atom_set`), average the running lists,
and write the averages back to every atom of the set. -/
noncomputable def symm_atom_set_step (st : List NBF × List ℝ × List ℝ × List ℝ)
    (atom_set : List ℕ) : List NBF × List ℝ × List ℝ × List ℝ :=
  let nbf := st.1
  let charges := st.2.1 ++ atom_set.map (fun a => (nbf.getD (a - 1) (0, 0, 0)).1)
  let sigmas := st.2.2.1 ++ atom_set.map (fun a => (nbf.getD (a - 1) (0, 0, 0)).2.1)
  let epsilons := st.2.2.2 ++ atom_set.map (fun a => (nbf.getD (a - 1) (0, 0, 0)).2.2)
  let charge := charges.sum / (charges.length : ℝ)
  let sigma := sigmas.sum / (sigmas.length : ℝ)
  let epsilon := epsilons.sum / (epsilons.length : ℝ)
  let nbf1 := atom_set.foldl (fun acc a => acc.set (a - 1) (charge, sigma, epsilon)) nbf
  (nbf1, charges, sigmas, epsilons)

/-- One `sym_set` iteration: the running lists start empty for each `sym_set`. -/
noncomputable def symm_set_step (nbf : List NBF) (sym_set : List (List ℕ)) : List NBF :=
  (sym_set.foldl symm_atom_set_step (nbf, [], [], [])).1

/-- `LennardJones.apply_symmetrisation` (`lennard_jones.py` lines 261–277)
over `molecule.symm_hs.values()`. -/
noncomputable def apply_symmetrisation (symm : List (List (List ℕ))) (nbf : List NBF) :
    List NBF :=
  symm.foldl symm_set_step nbf

/-! ## Helper lemmas: lengths and untouched fields of the polar-hydrogen pass -/

theorem sqrt_bis_length (d : List DdecAtom) : (sqrt_bis d).length = d.length :=
  List.length_map _ _

theorem square_bis_length (d : List DdecAtom) : (square_bis d).length = d.length :=
  List.length_map _ _

theorem recompute_ais_length (d : List DdecAtom) : (recompute_ais d).length = d.length :=
  List.length_map _ _

theorem donate_length (d : List DdecAtom) (pr : ℕ × ℕ) : (donate d pr).length = d.length := by
  unfold donate
  rw [List.length_modify, List.length_modify]

theorem foldl_donate_length (ps : List (ℕ × ℕ)) (d : List DdecAtom) :
    (ps.foldl donate d).length = d.length := by
  induction ps generalizing d with
  | nil => rfl
  | cons p ps ih => rw [List.foldl_cons, ih, donate_length]

/-- `getD` through a `List.modify` whose function preserves the charge. -/
theorem getD_modify_charge (g : DdecAtom → DdecAtom) (hg : ∀ a, (g a).charge = a.charge)
    (n : ℕ) (d : List DdecAtom) (pos : ℕ) :
    ((d.modify g n).getD pos default).charge = (d.getD pos default).charge := by
  rcases Nat.lt_or_ge pos d.length with h | h
  · have h1 : pos < (d.modify g n).length := by rw [List.length_modify]; exact h
    rw [List.getD_eq_getElem _ _ h1, List.getD_eq_getElem _ _ h, List.getElem_modify]
    split
    · exact hg _
    · rfl
  · have h1 : (d.modify g n).length ≤ pos := by rw [List.length_modify]; exact h
    rw [List.getD_eq_default _ _ h1, List.getD_eq_default _ _ h]

theorem donate_charge (d : List DdecAtom) (pr : ℕ × ℕ) (pos : ℕ) :
    ((donate d pr).getD pos default).charge = (d.getD pos default).charge := by
  unfold donate
  refine (getD_modify_charge _ ?_ _ _ _).trans (getD_modify_charge _ ?_ _ _ _) <;>
    exact fun _ => rfl

theorem foldl_donate_charge (ps : List (ℕ × ℕ)) (d : List DdecAtom) (pos : ℕ) :
    ((ps.foldl donate d).getD pos default).charge = (d.getD pos default).charge := by
  induction ps generalizing d with
  | nil => rfl
  | cons p ps ih => rw [List.foldl_cons, ih, donate_charge]

/-- `getD` through a `List.map` whose function preserves the charge. -/
theorem getD_map_charge (g : DdecAtom → DdecAtom) (hg : ∀ a, (g a).charge = a.charge)
    (d : List DdecAtom) (pos : ℕ) :
    ((d.map g).getD pos default).charge = (d.getD pos default).charge := by
  rcases Nat.lt_or_ge pos d.length with h | h
  · have h1 : pos < (d.map g).length := by rw [List.length_map]; exact h
    rw [List.getD_eq_getElem _ _ h1, List.getD_eq_getElem _ _ h, List.getElem_map]
    exact hg _
  · have h1 : (d.map g).length ≤ pos := by rw [List.length_map]; exact h
    rw [List.getD_eq_default _ _ h1, List.getD_eq_default _ _ h]

theorem pipeline_charge (edges : List (ℕ × ℕ)) (ddec : List DdecAtom) (pos : ℕ) :
    (((polars edges ddec).foldl donate (sqrt_bis ddec) |> square_bis |> recompute_ais).getD
        pos default).charge = (ddec.getD pos default).charge := by
  show ((recompute_ais (square_bis _)).getD pos default).charge = _
  unfold recompute_ais square_bis sqrt_bis
  refine (getD_map_charge _ ?_ _ _).trans
    ((getD_map_charge _ ?_ _ _).trans
      ((foldl_donate_charge _ _ _).trans
        (getD_map_charge _ ?_ _ _))) <;>
    exact fun _ => rfl

theorem update_nbf_length (d : List DdecAtom) (nbf : List NBF) (h : nbf.length = d.length) :
    (update_nbf d nbf).length = nbf.length := by
  induction d generalizing nbf with
  | nil => rfl
  | cons a rest ih =>
    cases nbf with
    | nil => rfl
    | cons e nrest =>
      show (_ :: update_nbf rest nrest).length = _
      have := ih nrest (by simpa using h)
      simp [this]

theorem update_nbf_getD (d : List DdecAtom) (nbf : List NBF) (pos : ℕ)
    (h1 : pos < d.length) (h2 : pos < nbf.length) :
    (update_nbf d nbf).getD pos (0, 0, 0) =
      (if (d.getD pos default).a_i = 0 then (((d.getD pos default).charge, 0, 0) : NBF)
       else ((d.getD pos default).charge, (nbf.getD pos (0, 0, 0)).2.1,
             (d.getD pos default).b_i ^ 2 / (4 * (d.getD pos default).a_i) * 57.65240039)) := by
  induction d generalizing nbf pos with
  | nil => exact absurd h1 (by simp)
  | cons a rest ih =>
    cases nbf with
    | nil => exact absurd h2 (by simp)
    | cons e nrest =>
      cases pos with
      | zero => rfl
      | succ n =>
        show (update_nbf rest nrest).getD n (0, 0, 0) = _
        exact ih nrest n (by simpa using h1) (by simpa using h2)

/-! ## C10 and its witness -/

/-- C10: `correct_polar_hydrogens` never modifies any atom's charge: whenever
the charge slots of `non_bonded_force` agree with the `ddec_data` charges (as
`calculate_sig_eps` establishes), the charge slot of every entry after the
correction equals the charge slot before it; only sigma and epsilon can
change. -/
theorem correct_polar_hydrogens_preserves_charges (edges : List (ℕ × ℕ))
    (ddec : List DdecAtom) (nbf : List NBF) (hlen : nbf.length = ddec.length)
    (hch : ∀ pos, pos < ddec.length →
      (nbf.getD pos (0, 0, 0)).1 = (ddec.getD pos default).charge)
    (pos : ℕ) (hpos : pos < nbf.length) :
    (((correct_polar_hydrogens edges ddec nbf).2).getD pos (0, 0, 0)).1 =
      (nbf.getD pos (0, 0, 0)).1 := by
  have hposd : pos < ddec.length := hlen ▸ hpos
  have hd4len :
      ((polars edges ddec).foldl donate (sqrt_bis ddec) |> square_bis |> recompute_ais).length
        = ddec.length := by
    rw [recompute_ais_length, square_bis_length, foldl_donate_length, sqrt_bis_length]
  show ((update_nbf _ nbf).getD pos (0, 0, 0)).1 = _
  rw [update_nbf_getD _ _ _ (by rw [hd4len]; exact hposd) hpos]
  have hc := pipeline_charge edges ddec pos
  split
  · rw [hc, hch pos hposd]
  · show (_, _, _).1 = _
    rw [hc, hch pos hposd]

/-! ## Per-index lemmas for the polar-hydrogen `b_i` pipeline -/

theorem getD_map_element (g : DdecAtom → DdecAtom) (hg : ∀ a, (g a).element = a.element)
    (d : List DdecAtom) (pos : ℕ) :
    ((d.map g).getD pos default).element = (d.getD pos default).element := by
  rcases Nat.lt_or_ge pos d.length with h | h
  · have h1 : pos < (d.map g).length := by rw [List.length_map]; exact h
    rw [List.getD_eq_getElem _ _ h1, List.getD_eq_getElem _ _ h, List.getElem_map]
    exact hg _
  · have h1 : (d.map g).length ≤ pos := by rw [List.length_map]; exact h
    rw [List.getD_eq_default _ _ h1, List.getD_eq_default _ _ h]

theorem elem_at_sqrt_bis (d : List DdecAtom) (k : ℕ) :
    elem_at (sqrt_bis d) k = elem_at d k := by
  unfold elem_at sqrt_bis
  refine getD_map_element _ ?_ _ _
  exact fun _ => rfl

theorem polar_h_son_sqrt_bis (d : List DdecAtom) (pr : ℕ × ℕ) :
    polar_h_son (sqrt_bis d) pr = polar_h_son d pr := by
  unfold polar_h_son
  rw [elem_at_sqrt_bis]

theorem sqrt_bis_getD (d : List DdecAtom) (pos : ℕ) (h : pos < d.length) :
    (sqrt_bis d).getD pos default =
      {d.getD pos default with b_i := Real.sqrt (d.getD pos default).b_i} := by
  unfold sqrt_bis
  have h1 : pos < (d.map fun a => {a with b_i := Real.sqrt a.b_i}).length := by
    rw [List.length_map]; exact h
  rw [List.getD_eq_getElem _ _ h1, List.getD_eq_getElem _ _ h, List.getElem_map]

theorem square_bis_getD (d : List DdecAtom) (pos : ℕ) (h : pos < d.length) :
    (square_bis d).getD pos default =
      {d.getD pos default with b_i := (d.getD pos default).b_i * (d.getD pos default).b_i} := by
  unfold square_bis
  have h1 : pos < (d.map fun a => {a with b_i := a.b_i * a.b_i}).length := by
    rw [List.length_map]; exact h
  rw [List.getD_eq_getElem _ _ h1, List.getD_eq_getElem _ _ h, List.getElem_map]

theorem recompute_ais_getD (d : List DdecAtom) (pos : ℕ) (h : pos < d.length) :
    (recompute_ais d).getD pos default =
      {d.getD pos default with
        a_i := 32 * (d.getD pos default).b_i * (d.getD pos default).r_aim ^ (6 : ℕ)} := by
  unfold recompute_ais
  have h1 : pos < (d.map fun a => {a with a_i := 32 * a.b_i * a.r_aim ^ (6 : ℕ)}).length := by
    rw [List.length_map]; exact h
  rw [List.getD_eq_getElem _ _ h1, List.getD_eq_getElem _ _ h, List.getElem_map]

/-- After one `donate`, the polar hydrogen's `b_i` is zero. -/
theorem donate_b_h (d : List DdecAtom) (pr : ℕ × ℕ)
    (hh : (polar_h_son d pr).1 < d.length) :
    ((donate d pr).getD (polar_h_son d pr).1 default).b_i = 0 := by
  unfold donate
  have hlen1 : (polar_h_son d pr).1 <
      (d.modify (fun a => {a with b_i := a.b_i + (d.getD (polar_h_son d pr).1 default).b_i})
        (polar_h_son d pr).2).length := by
    rw [List.length_modify]; exact hh
  have hlen2 : (polar_h_son d pr).1 <
      ((d.modify (fun a => {a with b_i := a.b_i + (d.getD (polar_h_son d pr).1 default).b_i})
        (polar_h_son d pr).2).modify (fun a => {a with b_i := 0}) (polar_h_son d pr).1).length := by
    rw [List.length_modify]; exact hlen1
  rw [List.getD_eq_getElem _ _ hlen2, List.getElem_modify]
  simp

/-- After one `donate`, the heavy partner's `b_i` has gained the hydrogen's. -/
theorem donate_b_s (d : List DdecAtom) (pr : ℕ × ℕ)
    (hs : (polar_h_son d pr).2 < d.length)
    (hne : (polar_h_son d pr).1 ≠ (polar_h_son d pr).2) :
    ((donate d pr).getD (polar_h_son d pr).2 default).b_i =
      (d.getD (polar_h_son d pr).2 default).b_i +
        (d.getD (polar_h_son d pr).1 default).b_i := by
  unfold donate
  have hlen1 : (polar_h_son d pr).2 <
      (d.modify (fun a => {a with b_i := a.b_i + (d.getD (polar_h_son d pr).1 default).b_i})
        (polar_h_son d pr).2).length := by
    rw [List.length_modify]; exact hs
  have hlen2 : (polar_h_son d pr).2 <
      ((d.modify (fun a => {a with b_i := a.b_i + (d.getD (polar_h_son d pr).1 default).b_i})
        (polar_h_son d pr).2).modify (fun a => {a with b_i := 0}) (polar_h_son d pr).1).length := by
    rw [List.length_modify]; exact hlen1
  rw [List.getD_eq_getElem _ _ hlen2, List.getElem_modify, if_neg hne,
      List.getElem_modify, if_pos rfl, ← List.getD_eq_getElem d default hs]

/-! ## The polar loop over an arbitrary `polars` list

`donate` is folded over every polar pair.  Because the elements never change,
`polar_h_son` resolves identically at every step of the fold; a hydrogen is
zeroed at its first pair and — hydrogens are never heavy partners — never
receives anything afterwards, while a heavy partner accumulates the square
roots of all its hydrogens. -/

/-- `getD` through a `List.modify` at a different index. -/
theorem getD_modify_ne {α : Type} [Inhabited α] (g : α → α) (n : ℕ) (d : List α)
    (pos : ℕ) (hne : n ≠ pos) :
    (d.modify g n).getD pos default = d.getD pos default := by
  rcases Nat.lt_or_ge pos d.length with h | h
  · have h1 : pos < (d.modify g n).length := by rw [List.length_modify]; exact h
    rw [List.getD_eq_getElem _ _ h1, List.getD_eq_getElem _ _ h, List.getElem_modify,
        if_neg hne]
  · have h1 : (d.modify g n).length ≤ pos := by rw [List.length_modify]; exact h
    rw [List.getD_eq_default _ _ h1, List.getD_eq_default _ _ h]

/-- `getD` through a `List.modify` whose function preserves the element. -/
theorem getD_modify_element (g : DdecAtom → DdecAtom) (hg : ∀ a, (g a).element = a.element)
    (n : ℕ) (d : List DdecAtom) (pos : ℕ) :
    ((d.modify g n).getD pos default).element = (d.getD pos default).element := by
  rcases Nat.lt_or_ge pos d.length with h | h
  · have h1 : pos < (d.modify g n).length := by rw [List.length_modify]; exact h
    rw [List.getD_eq_getElem _ _ h1, List.getD_eq_getElem _ _ h, List.getElem_modify]
    split
    · exact hg _
    · rfl
  · have h1 : (d.modify g n).length ≤ pos := by rw [List.length_modify]; exact h
    rw [List.getD_eq_default _ _ h1, List.getD_eq_default _ _ h]

theorem elem_at_donate (d : List DdecAtom) (pr : ℕ × ℕ) (k : ℕ) :
    elem_at (donate d pr) k = elem_at d k := by
  unfold elem_at donate
  refine (getD_modify_element _ ?_ _ _ _).trans (getD_modify_element _ ?_ _ _ _) <;>
    exact fun _ => rfl

theorem polar_h_son_donate (d : List DdecAtom) (pr q : ℕ × ℕ) :
    polar_h_son (donate d pr) q = polar_h_son d q := by
  unfold polar_h_son
  rw [elem_at_donate]

/-- `donate` leaves every row other than its hydrogen and its heavy partner
untouched. -/
theorem donate_getD_other (d : List DdecAtom) (pr : ℕ × ℕ) (pos : ℕ)
    (hh : (polar_h_son d pr).1 ≠ pos) (hs : (polar_h_son d pr).2 ≠ pos) :
    (donate d pr).getD pos default = d.getD pos default := by
  simp only [donate]
  rw [getD_modify_ne _ _ _ _ hh, getD_modify_ne _ _ _ _ hs]

/-- A position that is neither hydrogen nor heavy partner of any pair is
untouched by the whole polar loop. -/
theorem foldl_donate_untouched (ps : List (ℕ × ℕ)) :
    ∀ (d : List DdecAtom) (pos : ℕ),
      (∀ p ∈ ps, (polar_h_son d p).1 ≠ pos ∧ (polar_h_son d p).2 ≠ pos) →
      (ps.foldl donate d).getD pos default = d.getD pos default := by
  induction ps with
  | nil => intro d pos _; rfl
  | cons p ts ih =>
    intro d pos hno
    rw [List.foldl_cons]
    have hstep : (donate d p).getD pos default = d.getD pos default :=
      donate_getD_other d p pos (hno p (List.mem_cons_self p ts)).1
        (hno p (List.mem_cons_self p ts)).2
    rw [ih (donate d p) pos
      (fun q hq => by rw [polar_h_son_donate]; exact hno q (List.mem_cons_of_mem p hq)),
      hstep]

/-- A position with `b_i = 0` that is no pair's heavy partner keeps `b_i = 0`
through the polar loop (a later pair can only re-zero it). -/
theorem foldl_donate_b_keep_zero (ps : List (ℕ × ℕ)) :
    ∀ (d : List DdecAtom) (pos : ℕ), pos < d.length →
      (∀ p ∈ ps, (polar_h_son d p).2 ≠ pos) →
      (d.getD pos default).b_i = 0 →
      ((ps.foldl donate d).getD pos default).b_i = 0 := by
  induction ps with
  | nil => intro d pos _ _ hb; exact hb
  | cons p ts ih =>
    intro d pos hpos hson hb
    rw [List.foldl_cons]
    refine ih (donate d p) pos (by rw [donate_length]; exact hpos)
      (fun q hq => by rw [polar_h_son_donate]; exact hson q (List.mem_cons_of_mem p hq)) ?_
    by_cases hcase : (polar_h_son d p).1 = pos
    · have hhlt : (polar_h_son d p).1 < d.length := by rw [hcase]; exact hpos
      have h0 := donate_b_h d p hhlt
      rw [hcase] at h0
      exact h0
    · rw [donate_getD_other d p pos hcase (hson p (List.mem_cons_self p ts))]
      exact hb

/-- The hydrogen of any pair of the polar loop ends with `b_i = 0`, provided
no pair has it as heavy partner. -/
theorem foldl_donate_b_zero (ps : List (ℕ × ℕ)) :
    ∀ (d : List DdecAtom) (pos : ℕ), pos < d.length →
      (∀ p ∈ ps, (polar_h_son d p).2 ≠ pos) →
      (∃ p ∈ ps, (polar_h_son d p).1 = pos) →
      ((ps.foldl donate d).getD pos default).b_i = 0 := by
  induction ps with
  | nil =>
    intro d pos _ _ hmem
    rcases hmem with ⟨p, hp, _⟩
    exact absurd hp (List.not_mem_nil p)
  | cons p ts ih =>
    intro d pos hpos hson hmem
    rw [List.foldl_cons]
    rcases hmem with ⟨q, hq, hqe⟩
    rcases List.mem_cons.mp hq with rfl | hqts
    · refine foldl_donate_b_keep_zero ts (donate d q) pos (by rw [donate_length]; exact hpos)
        (fun r hr => by rw [polar_h_son_donate]; exact hson r (List.mem_cons_of_mem q hr)) ?_
      have hhlt : (polar_h_son d q).1 < d.length := by rw [hqe]; exact hpos
      have h0 := donate_b_h d q hhlt
      rw [hqe] at h0
      exact h0
    · exact ih (donate d p) pos (by rw [donate_length]; exact hpos)
        (fun r hr => by rw [polar_h_son_donate]; exact hson r (List.mem_cons_of_mem p hr))
        ⟨q, hqts, by rw [polar_h_son_donate]; exact hqe⟩

/-- A position that is no pair's hydrogen accumulates, over the polar loop,
the `b_i` of the hydrogen of every pair whose heavy partner it is. -/
theorem foldl_donate_b_acc (ps : List (ℕ × ℕ)) :
    ∀ (d : List DdecAtom) (pos : ℕ), pos < d.length →
      (∀ p ∈ ps, (polar_h_son d p).1 < d.length) →
      (∀ p ∈ ps, (polar_h_son d p).1 ≠ pos) →
      (∀ p ∈ ps, ∀ q ∈ ps, (polar_h_son d p).1 ≠ (polar_h_son d q).2) →
      List.Pairwise (fun p q => (polar_h_son d p).1 ≠ (polar_h_son d q).1) ps →
      ((ps.foldl donate d).getD pos default).b_i =
        (d.getD pos default).b_i +
          ((ps.filter (fun p => (polar_h_son d p).2 == pos)).map
            (fun p => (d.getD (polar_h_son d p).1 default).b_i)).sum := by
  induction ps with
  | nil => intro d pos _ _ _ _ _; simp
  | cons p ts ih =>
    intro d pos hpos hrangeh hh hhns hdist
    rw [List.foldl_cons, List.filter_cons]
    rcases List.pairwise_cons.mp hdist with ⟨hdhead, hdtail⟩
    have ihapp := ih (donate d p) pos (by rw [donate_length]; exact hpos)
      (fun q hq => by
        rw [polar_h_son_donate, donate_length]
        exact hrangeh q (List.mem_cons_of_mem p hq))
      (fun q hq => by rw [polar_h_son_donate]; exact hh q (List.mem_cons_of_mem p hq))
      (fun q hq r hr => by
        rw [polar_h_son_donate, polar_h_son_donate]
        exact hhns q (List.mem_cons_of_mem p hq) r (List.mem_cons_of_mem p hr))
      (hdtail.imp (fun hab => by rw [polar_h_son_donate, polar_h_son_donate]; exact hab))
    simp only [polar_h_son_donate] at ihapp
    rw [ihapp]
    have hmapc : (ts.filter (fun q => (polar_h_son d q).2 == pos)).map
        (fun q => ((donate d p).getD (polar_h_son d q).1 default).b_i) =
      (ts.filter (fun q => (polar_h_son d q).2 == pos)).map
        (fun q => (d.getD (polar_h_son d q).1 default).b_i) := by
      refine List.map_congr_left (fun q hq => ?_)
      have hqts : q ∈ ts := (List.mem_filter.mp hq).1
      rw [donate_getD_other d p _ (hdhead q hqts)
        (Ne.symm (hhns q (List.mem_cons_of_mem p hqts) p (List.mem_cons_self p ts)))]
    rw [hmapc]
    by_cases hcase : (polar_h_son d p).2 = pos
    · have hbeq : ((polar_h_son d p).2 == pos) = true := by simp [hcase]
      rw [hbeq, if_pos rfl]
      have hslt : (polar_h_son d p).2 < d.length := by rw [hcase]; exact hpos
      have hbs := donate_b_s d p hslt
        (hhns p (List.mem_cons_self p ts) p (List.mem_cons_self p ts))
      rw [hcase] at hbs
      rw [hbs, List.map_cons, List.sum_cons]
      ring
    · have hbeq : ((polar_h_son d p).2 == pos) = false := by simp [hcase]
      rw [hbeq]
      simp only [Bool.false_eq_true, if_false]
      rw [donate_getD_other d p pos (hh p (List.mem_cons_self p ts)) hcase]

/-- On the supported elements an O/N/S atom is not a hydrogen. -/
theorem is_ons_not_hydrogen (e : Element) (h : is_ons e = true) : is_hydrogen e = false := by
  cases e <;> simp_all [is_ons, is_hydrogen]

theorem not_hydrogen_and_ons (e : Element) :
    ¬(is_hydrogen e = true ∧ is_ons e = true) := by
  cases e <;> simp [is_hydrogen, is_ons]

/-- The resolved hydrogen of a `polars` pair is a hydrogen atom and the
resolved heavy partner is an O/N/S atom. -/
theorem polars_mem_resolved (edges : List (ℕ × ℕ)) (ddec : List DdecAtom) (p : ℕ × ℕ)
    (hp : p ∈ polars edges ddec) :
    is_hydrogen ((ddec.getD ((polar_h_son ddec p).1) default).element) = true ∧
    is_ons ((ddec.getD ((polar_h_son ddec p).2) default).element) = true := by
  unfold polars at hp
  have hcond := (List.mem_filter.mp hp).2
  simp only [Bool.or_eq_true, Bool.and_eq_true] at hcond
  unfold polar_h_son
  rcases hcond with ⟨hons, hhyd⟩ | ⟨hons, hhyd⟩
  · have hfalse : is_hydrogen (elem_at ddec p.1) = false := is_ons_not_hydrogen _ hons
    rw [hfalse]
    simp only [Bool.false_eq_true, if_false]
    exact ⟨hhyd, hons⟩
  · rw [hhyd]
    simp only [if_true]
    exact ⟨hhyd, hons⟩

/-- Hydrogens of `polars` pairs are never heavy partners of `polars` pairs. -/
theorem polars_h_ne_son (edges : List (ℕ × ℕ)) (ddec : List DdecAtom) :
    ∀ p ∈ polars edges ddec, ∀ q ∈ polars edges ddec,
      (polar_h_son ddec p).1 ≠ (polar_h_son ddec q).2 := by
  intro p hp q hq heq
  have h1 := (polars_mem_resolved edges ddec p hp).1
  have h2 := (polars_mem_resolved edges ddec q hq).2
  rw [heq] at h1
  exact not_hydrogen_and_ons _ ⟨h1, h2⟩

/-! ## C8 and its witness -/

/-- C8: an atom with AIM volume `0` gets `b_i = a_i = 0` from `append_ais_bis`
and hence the exact pair `(sigma, epsilon) = (0, 0)` from `calculate_sig_eps`,
which completes for the whole molecule (one output entry per atom). -/
theorem sig_eps_zero_of_zero_volume (raw : List RawAtom) (pos : ℕ)
    (hpos : pos < raw.length) (hvol : (raw.getD pos default).vol = 0) :
    (calculate_sig_eps (append_ais_bis raw)).length = raw.length ∧
    (calculate_sig_eps (append_ais_bis raw)).getD pos (0, 0, 0) =
      ((raw.getD pos default).charge, 0, 0) := by
  have hlen : (calculate_sig_eps (append_ais_bis raw)).length = raw.length := by
    unfold calculate_sig_eps append_ais_bis
    rw [List.length_map, List.length_map]
  refine ⟨hlen, ?_⟩
  have h1 : pos < (calculate_sig_eps (append_ais_bis raw)).length := by rw [hlen]; exact hpos
  have h2 : pos < (append_ais_bis raw).length := by
    unfold append_ais_bis; rw [List.length_map]; exact hpos
  rw [List.getD_eq_getElem _ _ h1, List.getD_eq_getElem _ _ hpos] at *
  unfold calculate_sig_eps append_ais_bis
  rw [List.getElem_map, List.getElem_map]
  simp only [hvol]
  norm_num

/-- Witness for C8: a single oxygen atom with zero AIM volume. -/
theorem sig_eps_zero_of_zero_volume_witness :
    (calculate_sig_eps (append_ais_bis [⟨Element.O, 2.5, 0⟩])).length =
      ([⟨Element.O, 2.5, 0⟩] : List RawAtom).length ∧
    (calculate_sig_eps (append_ais_bis [⟨Element.O, 2.5, 0⟩])).getD 0 (0, 0, 0) =
      ((([⟨Element.O, 2.5, 0⟩] : List RawAtom).getD 0 default).charge, 0, 0) :=
  sig_eps_zero_of_zero_volume [⟨Element.O, 2.5, 0⟩] 0 (by simp) (by simp [List.getD])

/-! ## C6: counterexample, amended theorem and witness -/

/-- C6 counterexample: at a bonded O–H pair with nonzero `b_i` on both atoms,
`correct_polar_hydrogens` *changes the hydrogen's sigma* (the zero-`a_i`
branch of the `non_bonded_force` update writes `str(0)` into the sigma slot),
refuting "every atom's sigma is unchanged by this step". -/
theorem correct_polar_hydrogens_changes_sigma :
    (((correct_polar_hydrogens [(1, 2)]
          [⟨Element.O, 1, 22.1, 1, 4, 128⟩, ⟨Element.H, -1, 7.6, 1, 1, 32⟩]
          (calculate_sig_eps
            [⟨Element.O, 1, 22.1, 1, 4, 128⟩, ⟨Element.H, -1, 7.6, 1, 1, 32⟩])).2.getD
        1 (0, 0, 0)).2.1) ≠
      (((calculate_sig_eps
          [⟨Element.O, 1, 22.1, 1, 4, 128⟩, ⟨Element.H, -1, 7.6, 1, 1, 32⟩]).getD
        1 (0, 0, 0)).2.1) := by
  have hrhs : (((calculate_sig_eps
      [⟨Element.O, 1, 22.1, 1, 4, 128⟩, ⟨Element.H, -1, 7.6, 1, 1, 32⟩]).getD
        1 (0, 0, 0)).2.1) = ((32 : ℝ) / 1) ^ ((1 : ℝ) / 6) * 0.1 := by
    norm_num [calculate_sig_eps, List.getD]
  have hpol : polars [(1, 2)]
      [⟨Element.O, 1, 22.1, 1, 4, 128⟩, ⟨Element.H, -1, 7.6, 1, 1, 32⟩] = [(1, 2)] := by
    simp [polars, elem_at, is_ons, is_hydrogen, List.getD]
  have hlhs : (((correct_polar_hydrogens [(1, 2)]
      [⟨Element.O, 1, 22.1, 1, 4, 128⟩, ⟨Element.H, -1, 7.6, 1, 1, 32⟩]
      (calculate_sig_eps
        [⟨Element.O, 1, 22.1, 1, 4, 128⟩, ⟨Element.H, -1, 7.6, 1, 1, 32⟩])).2.getD
        1 (0, 0, 0)).2.1) = 0 := by
    unfold correct_polar_hydrogens
    rw [hpol]
    simp only [List.foldl_cons, List.foldl_nil]
    norm_num [sqrt_bis, donate, polar_h_son, elem_at, is_hydrogen, List.getD,
      square_bis, recompute_ais, update_nbf, calculate_sig_eps, List.modify]
  rw [hlhs, hrhs]
  have : (0 : ℝ) < ((32 : ℝ) / 1) ^ ((1 : ℝ) / 6) * 0.1 := by
    have h32 : (0 : ℝ) < (32 : ℝ) / 1 := by norm_num
    have := Real.rpow_pos_of_pos h32 ((1 : ℝ) / 6)
    nlinarith
  exact fun h => absurd (h.symm.trans (by ring)) (ne_of_gt this)

/-- C6 amended (general polar list): after `correct_polar_hydrogens`, every
polar hydrogen's `b_i` is exactly `0`; every atom that is no pair's polar
hydrogen — in particular every heavy partner — has `b_i` equal to the square
of its own pre-correction square root plus the square roots of *all* the
polar hydrogens donated to it (for a single H–(O/N/S) pair this is the square
of the sum of the two atoms' pre-correction square roots); every atom's `a_i`
is recomputed as `32 * b_i * r_aim ** 6`; epsilon is recomputed from the new
`b_i`, `a_i`, and the sigma slot is kept for atoms whose new `a_i` is nonzero
but zeroed for atoms whose new `a_i` is zero (in particular the polar
hydrogen).  The pairwise-distinct-hydrogens hypothesis covers the standard
case that each hydrogen occurs in at most one polar pair: a hydrogen bonded
to two O/N/S atoms would donate its square root only at its first pair. -/
theorem correct_polar_hydrogens_redistributes (edges : List (ℕ × ℕ))
    (ddec : List DdecAtom) (nbf : List NBF) (hlen : nbf.length = ddec.length)
    (hrange : ∀ p ∈ polars edges ddec,
      (polar_h_son ddec p).1 < ddec.length ∧ (polar_h_son ddec p).2 < ddec.length)
    (hdist : List.Pairwise
      (fun p q => (polar_h_son ddec p).1 ≠ (polar_h_son ddec q).1) (polars edges ddec)) :
    (∀ p ∈ polars edges ddec,
      ((correct_polar_hydrogens edges ddec nbf).1.getD ((polar_h_son ddec p).1)
        default).b_i = 0) ∧
    (∀ pos, pos < ddec.length →
      (∀ p ∈ polars edges ddec, (polar_h_son ddec p).1 ≠ pos) →
      ((correct_polar_hydrogens edges ddec nbf).1.getD pos default).b_i =
        (Real.sqrt ((ddec.getD pos default).b_i) +
          (((polars edges ddec).filter (fun p => (polar_h_son ddec p).2 == pos)).map
            (fun p => Real.sqrt ((ddec.getD ((polar_h_son ddec p).1) default).b_i))).sum)
          ^ 2) ∧
    (∀ pos, ((correct_polar_hydrogens edges ddec nbf).1.getD pos default).a_i =
      32 * ((correct_polar_hydrogens edges ddec nbf).1.getD pos default).b_i *
        ((correct_polar_hydrogens edges ddec nbf).1.getD pos default).r_aim ^ (6 : ℕ)) ∧
    (∀ pos, pos < ddec.length →
      (correct_polar_hydrogens edges ddec nbf).2.getD pos (0, 0, 0) =
        (if ((correct_polar_hydrogens edges ddec nbf).1.getD pos default).a_i = 0
         then (((ddec.getD pos default).charge, 0, 0) : NBF)
         else ((ddec.getD pos default).charge, (nbf.getD pos (0, 0, 0)).2.1,
           ((correct_polar_hydrogens edges ddec nbf).1.getD pos default).b_i ^ 2 /
             (4 * ((correct_polar_hydrogens edges ddec nbf).1.getD pos default).a_i) *
               57.65240039))) := by
  have hd1 : (correct_polar_hydrogens edges ddec nbf).1 =
      recompute_ais (square_bis ((polars edges ddec).foldl donate (sqrt_bis ddec))) := rfl
  have hlfold : ((polars edges ddec).foldl donate (sqrt_bis ddec)).length = ddec.length := by
    rw [foldl_donate_length, sqrt_bis_length]
  have hhns := polars_h_ne_son edges ddec
  refine ⟨?_, ?_, ?_, ?_⟩
  · -- every polar hydrogen ends with b_i = 0
    intro p hp
    have hplt : (polar_h_son ddec p).1 < ddec.length := (hrange p hp).1
    have h0 : (((polars edges ddec).foldl donate (sqrt_bis ddec)).getD
        ((polar_h_son ddec p).1) default).b_i = 0 :=
      foldl_donate_b_zero (polars edges ddec) (sqrt_bis ddec) _
        (by rw [sqrt_bis_length]; exact hplt)
        (fun q hq => by rw [polar_h_son_sqrt_bis]; exact Ne.symm (hhns p hp q hq))
        ⟨p, hp, by rw [polar_h_son_sqrt_bis]⟩
    rw [hd1, recompute_ais_getD _ _ (by rw [square_bis_length, hlfold]; exact hplt),
        square_bis_getD _ _ (by rw [hlfold]; exact hplt)]
    show (((polars edges ddec).foldl donate (sqrt_bis ddec)).getD
        ((polar_h_son ddec p).1) default).b_i *
      (((polars edges ddec).foldl donate (sqrt_bis ddec)).getD
        ((polar_h_son ddec p).1) default).b_i = 0
    rw [h0]
    ring
  · -- accumulation at every non-hydrogen position
    intro pos hpos hnh
    have hacc := foldl_donate_b_acc (polars edges ddec) (sqrt_bis ddec) pos
      (by rw [sqrt_bis_length]; exact hpos)
      (fun q hq => by rw [polar_h_son_sqrt_bis, sqrt_bis_length]; exact (hrange q hq).1)
      (fun q hq => by rw [polar_h_son_sqrt_bis]; exact hnh q hq)
      (fun q hq r hr => by
        rw [polar_h_son_sqrt_bis, polar_h_son_sqrt_bis]
        exact hhns q hq r hr)
      (hdist.imp (fun hab => by
        rw [polar_h_son_sqrt_bis, polar_h_son_sqrt_bis]
        exact hab))
    simp only [polar_h_son_sqrt_bis] at hacc
    have hmapsq : ((polars edges ddec).filter
          (fun p => (polar_h_son ddec p).2 == pos)).map
        (fun p => ((sqrt_bis ddec).getD ((polar_h_son ddec p).1) default).b_i) =
      ((polars edges ddec).filter (fun p => (polar_h_son ddec p).2 == pos)).map
        (fun p => Real.sqrt ((ddec.getD ((polar_h_son ddec p).1) default).b_i)) := by
      refine List.map_congr_left (fun q hq => ?_)
      have hqmem : q ∈ polars edges ddec := (List.mem_filter.mp hq).1
      rw [sqrt_bis_getD _ _ (hrange q hqmem).1]
    have hfoldb : (((polars edges ddec).foldl donate (sqrt_bis ddec)).getD pos
        default).b_i =
        Real.sqrt ((ddec.getD pos default).b_i) +
          (((polars edges ddec).filter (fun p => (polar_h_son ddec p).2 == pos)).map
            (fun p => Real.sqrt ((ddec.getD ((polar_h_son ddec p).1) default).b_i))).sum := by
      rw [hacc, sqrt_bis_getD _ _ hpos, hmapsq]
    rw [hd1, recompute_ais_getD _ _ (by rw [square_bis_length, hlfold]; exact hpos),
        square_bis_getD _ _ (by rw [hlfold]; exact hpos)]
    show (((polars edges ddec).foldl donate (sqrt_bis ddec)).getD pos default).b_i *
      (((polars edges ddec).foldl donate (sqrt_bis ddec)).getD pos default).b_i = _
    rw [hfoldb]
    ring
  · -- a_i recomputed everywhere
    intro pos
    rcases Nat.lt_or_ge pos ddec.length with hp | hp
    · rw [hd1, recompute_ais_getD _ _ (by rw [square_bis_length, hlfold]; exact hp)]
    · have : ((correct_polar_hydrogens edges ddec nbf).1).length ≤ pos := by
        rw [hd1, recompute_ais_length, square_bis_length, hlfold]; exact hp
      rw [List.getD_eq_default _ _ this]
      show (0 : ℝ) = 32 * 0 * (0 : ℝ) ^ (6 : ℕ)
      ring
  · -- the non_bonded_force update
    intro pos hp
    have hcl : (((correct_polar_hydrogens edges ddec nbf).1).getD pos default).charge =
        (ddec.getD pos default).charge := pipeline_charge edges ddec pos
    have hdl : pos < ((correct_polar_hydrogens edges ddec nbf).1).length := by
      rw [hd1, recompute_ais_length, square_bis_length, hlfold]; exact hp
    have h2 : (correct_polar_hydrogens edges ddec nbf).2 =
        update_nbf ((correct_polar_hydrogens edges ddec nbf).1) nbf := rfl
    rw [h2, update_nbf_getD _ _ _ hdl (by rw [hlen]; exact hp), hcl]

/-- Witness for C6 (amended) at a water-like molecule: one oxygen bonded to
two hydrogens, two polar pairs sharing the heavy atom; the oxygen accumulates
both hydrogens' square roots. -/
theorem correct_polar_hydrogens_redistributes_witness :
    (((correct_polar_hydrogens [(1, 2), (1, 3)]
        [⟨Element.O, 1, 22.1, 1, 4, 128⟩, ⟨Element.H, -1, 7.6, 1, 1, 32⟩,
         ⟨Element.H, 0.5, 7.6, 1, 9, 288⟩]
        (calculate_sig_eps
          [⟨Element.O, 1, 22.1, 1, 4, 128⟩, ⟨Element.H, -1, 7.6, 1, 1, 32⟩,
           ⟨Element.H, 0.5, 7.6, 1, 9, 288⟩])).1.getD
      ((polar_h_son
        [⟨Element.O, 1, 22.1, 1, 4, 128⟩, ⟨Element.H, -1, 7.6, 1, 1, 32⟩,
         ⟨Element.H, 0.5, 7.6, 1, 9, 288⟩] (1, 2)).1) default).b_i = 0) ∧
    (((correct_polar_hydrogens [(1, 2), (1, 3)]
        [⟨Element.O, 1, 22.1, 1, 4, 128⟩, ⟨Element.H, -1, 7.6, 1, 1, 32⟩,
         ⟨Element.H, 0.5, 7.6, 1, 9, 288⟩]
        (calculate_sig_eps
          [⟨Element.O, 1, 22.1, 1, 4, 128⟩, ⟨Element.H, -1, 7.6, 1, 1, 32⟩,
           ⟨Element.H, 0.5, 7.6, 1, 9, 288⟩])).1.getD 0 default).b_i =
      (Real.sqrt ((([⟨Element.O, 1, 22.1, 1, 4, 128⟩, ⟨Element.H, -1, 7.6, 1, 1, 32⟩,
            ⟨Element.H, 0.5, 7.6, 1, 9, 288⟩] : List DdecAtom).getD 0 default).b_i) +
        (((polars [(1, 2), (1, 3)]
            [⟨Element.O, 1, 22.1, 1, 4, 128⟩, ⟨Element.H, -1, 7.6, 1, 1, 32⟩,
             ⟨Element.H, 0.5, 7.6, 1, 9, 288⟩]).filter
          (fun p => (polar_h_son
            [⟨Element.O, 1, 22.1, 1, 4, 128⟩, ⟨Element.H, -1, 7.6, 1, 1, 32⟩,
             ⟨Element.H, 0.5, 7.6, 1, 9, 288⟩] p).2 == 0)).map
          (fun p => Real.sqrt
            ((([⟨Element.O, 1, 22.1, 1, 4, 128⟩, ⟨Element.H, -1, 7.6, 1, 1, 32⟩,
               ⟨Element.H, 0.5, 7.6, 1, 9, 288⟩] : List DdecAtom).getD
              ((polar_h_son
                [⟨Element.O, 1, 22.1, 1, 4, 128⟩, ⟨Element.H, -1, 7.6, 1, 1, 32⟩,
                 ⟨Element.H, 0.5, 7.6, 1, 9, 288⟩] p).1) default).b_i))).sum) ^ 2) := by
  have h := correct_polar_hydrogens_redistributes [(1, 2), (1, 3)]
    [⟨Element.O, 1, 22.1, 1, 4, 128⟩, ⟨Element.H, -1, 7.6, 1, 1, 32⟩,
     ⟨Element.H, 0.5, 7.6, 1, 9, 288⟩]
    (calculate_sig_eps
      [⟨Element.O, 1, 22.1, 1, 4, 128⟩, ⟨Element.H, -1, 7.6, 1, 1, 32⟩,
       ⟨Element.H, 0.5, 7.6, 1, 9, 288⟩])
    (by simp [calculate_sig_eps])
    (by decide)
    (by decide)
  exact ⟨h.1 (1, 2) (by decide), h.2.1 0 (by decide) (by decide)⟩
/-- Witness for C10 at a concrete two-atom O–H state. -/
theorem correct_polar_hydrogens_preserves_charges_witness :
    ((((correct_polar_hydrogens [(1, 2)]
        [⟨Element.O, (1 : ℝ), 22.1, 1, 4, 128⟩, ⟨Element.H, (-1 : ℝ), 7.6, 1, 1, 32⟩]
        [((1 : ℝ), 2, 3), ((-1 : ℝ), 5, 7)]).2).getD 1 (0, 0, 0)).1) =
      (([((1 : ℝ), 2, 3), ((-1 : ℝ), 5, 7)] : List NBF).getD 1 (0, 0, 0)).1 := by
  refine correct_polar_hydrogens_preserves_charges [(1, 2)] _ _ (by simp) ?_ 1 (by simp)
  intro pos hpos
  simp only [List.length_cons, List.length_nil] at hpos
  interval_cases pos <;> simp [List.getD]

/-! ## C7: the symmetry-averaging running lists are not reset per group -/

/-- C7: `apply_symmetrisation`'s running value lists are reset only per
`sym_set`, not per `atom_set`, so with one `sym_set` holding the two declared
groups `[1]` and `[2]` (pre-averaging values `0` and `6`), atom 2 receives
`3` — the running mean over both groups — instead of its own group's mean
`6`; the result also fails the whole-`sym_set` mean reading (atom 1 keeps
`0`, not `3`). -/
theorem apply_symmetrisation_accumulates_across_groups :
    apply_symmetrisation [[[1], [2]]] [((0 : ℝ), 0, 0), ((6 : ℝ), 6, 6)] =
      [((0 : ℝ), 0, 0), ((3 : ℝ), 3, 3)] ∧
    apply_symmetrisation [[[1], [2]]] [((0 : ℝ), 0, 0), ((6 : ℝ), 6, 6)] ≠
      [((0 : ℝ), 0, 0), ((6 : ℝ), 6, 6)] ∧
    apply_symmetrisation [[[1], [2]]] [((0 : ℝ), 0, 0), ((6 : ℝ), 6, 6)] ≠
      [((3 : ℝ), 3, 3), ((3 : ℝ), 3, 3)] := by
  have heval : apply_symmetrisation [[[1], [2]]] [((0 : ℝ), 0, 0), ((6 : ℝ), 6, 6)] =
      [((0 : ℝ), 0, 0), ((3 : ℝ), 3, 3)] := by
    norm_num [apply_symmetrisation, symm_set_step, symm_atom_set_step, List.getD]
  refine ⟨heval, ?_, ?_⟩ <;> rw [heval] <;> intro h <;>
    simp only [List.cons.injEq, Prod.mk.injEq] at h <;> norm_num at h

/-! ## Sign-flip invariance helpers (for C9) -/

theorem flip_eigenvec_apply_pos (p q : ℕ) (i0 : Fin 3) (ev : EigVecs) (a b : ℕ)
    (h : a = p ∧ b = q) : flip_eigenvec p q i0 ev a b = negCol i0 (ev a b) := by
  show (if a = p ∧ b = q then negCol i0 (ev a b) else ev a b) = _
  rw [if_pos h]

theorem flip_eigenvec_apply_neg (p q : ℕ) (i0 : Fin 3) (ev : EigVecs) (a b : ℕ)
    (h : ¬(a = p ∧ b = q)) : flip_eigenvec p q i0 ev a b = ev a b := by
  show (if a = p ∧ b = q then negCol i0 (ev a b) else ev a b) = _
  rw [if_neg h]

theorem dot_product_negCol (u : Vec3) (M : Fin 3 → Fin 3 → ℂ) (i0 i : Fin 3) :
    Complex.abs (dot_product u (fun r => negCol i0 M r i)) =
      Complex.abs (dot_product u (fun r => M r i)) := by
  by_cases h : i = i0
  · subst h
    have hneg : dot_product u (fun r => negCol i M r i) = -dot_product u (fun r => M r i) := by
      unfold dot_product negCol
      simp [Finset.sum_neg_distrib]
    rw [hneg]
    exact AbsoluteValue.map_neg Complex.abs _
  · have hsame : (fun r => negCol i0 M r i) = fun r => M r i := by
      funext r
      unfold negCol
      rw [if_neg h]
    rw [hsame]

theorem dot_rc_negCol (u : Vec3) (M : Fin 3 → Fin 3 → ℂ) (i0 i : Fin 3) :
    Complex.abs (dot_rc u (fun r => negCol i0 M r i)) =
      Complex.abs (dot_rc u (fun r => M r i)) := by
  by_cases h : i = i0
  · subst h
    have hneg : dot_rc u (fun r => negCol i M r i) = -dot_rc u (fun r => M r i) := by
      unfold dot_rc negCol
      simp [Finset.sum_neg_distrib]
    rw [hneg]
    exact AbsoluteValue.map_neg Complex.abs _
  · have hsame : (fun r => negCol i0 M r i) = fun r => M r i := by
      funext r
      unfold negCol
      rw [if_neg h]
    rw [hsame]

theorem proj_sum_negCol (lam : Fin 3 → ℂ) (M : Fin 3 → Fin 3 → ℂ) (i0 : Fin 3) (u : Vec3) :
    proj_sum lam (negCol i0 M) u = proj_sum lam M u := by
  unfold proj_sum
  exact Finset.sum_congr rfl (fun i _ => by rw [dot_product_negCol])

theorem proj_sum_flip (p q : ℕ) (i0 : Fin 3) (ev : EigVecs) (a b : ℕ) (lam : Fin 3 → ℂ)
    (u : Vec3) : proj_sum lam (flip_eigenvec p q i0 ev a b) u = proj_sum lam (ev a b) u := by
  unfold flip_eigenvec
  split_ifs with h
  · exact proj_sum_negCol _ _ _ _
  · rfl

theorem special_case_trial_k_proj_invariant (u_ab u_cb : Vec3) (bond_lens : ℝ × ℝ)
    (lam : (Fin 3 → ℂ) × (Fin 3 → ℂ)) (M1 M2 M1' M2' : Fin 3 → Fin 3 → ℂ)
    (h1 : ∀ u, proj_sum lam.1 M1' u = proj_sum lam.1 M1 u)
    (h2 : ∀ u, proj_sum lam.2 M2' u = proj_sum lam.2 M2 u) (theta : ℕ) :
    special_case_trial_k u_ab u_cb bond_lens lam (M1', M2') theta =
      special_case_trial_k u_ab u_cb bond_lens lam (M1, M2) theta := by
  simp only [special_case_trial_k]
  rw [h1, h2]

theorem f_c_a_special_case_proj_invariant (u_ab u_cb : Vec3) (bond_lens : ℝ × ℝ)
    (lam : (Fin 3 → ℂ) × (Fin 3 → ℂ)) (M1 M2 M1' M2' : Fin 3 → Fin 3 → ℂ)
    (h1 : ∀ u, proj_sum lam.1 M1' u = proj_sum lam.1 M1 u)
    (h2 : ∀ u, proj_sum lam.2 M2' u = proj_sum lam.2 M2 u) :
    f_c_a_special_case u_ab u_cb bond_lens lam (M1', M2') =
      f_c_a_special_case u_ab u_cb bond_lens lam (M1, M2) := by
  simp only [f_c_a_special_case]
  have harr : (special_case_trial_k u_ab u_cb bond_lens lam (M1', M2')) =
      (special_case_trial_k u_ab u_cb bond_lens lam (M1, M2)) := by
    funext theta
    exact special_case_trial_k_proj_invariant u_ab u_cb bond_lens lam M1 M2 M1' M2' h1 h2 theta
  rw [harr]

theorem force_constant_bond_flip (p q : ℕ) (i0 : Fin 3) (eigenvals : EigVals)
    (eigenvecs : EigVecs) (coords : ℕ → Vec3) (a b : ℕ) :
    force_constant_bond a b eigenvals (flip_eigenvec p q i0 eigenvecs) coords =
      force_constant_bond a b eigenvals eigenvecs coords := by
  by_cases h : a = p ∧ b = q
  · simp only [force_constant_bond, flip_eigenvec_apply_pos p q i0 eigenvecs a b h]
    exact congrArg _ (Finset.sum_congr rfl (fun i _ => by rw [dot_rc_negCol]))
  · simp only [force_constant_bond, flip_eigenvec_apply_neg p q i0 eigenvecs a b h]

theorem force_constant_angle_flip (p q : ℕ) (i0 : Fin 3) (eigenvals : EigVals)
    (eigenvecs : EigVecs) (coords : ℕ → Vec3) (a b c : ℕ) (bond_lens : ℕ → ℕ → ℝ)
    (scalings : ℝ × ℝ) :
    force_constant_angle a b c bond_lens eigenvals (flip_eigenvec p q i0 eigenvecs) coords
        scalings =
      force_constant_angle a b c bond_lens eigenvals eigenvecs coords scalings := by
  simp only [force_constant_angle]
  split_ifs with h
  · rw [proj_sum_flip, proj_sum_flip]
  · exact f_c_a_special_case_proj_invariant _ _ _ _ _ _ _ _
      (fun u => proj_sum_flip p q i0 eigenvecs a b _ u)
      (fun u => proj_sum_flip p q i0 eigenvecs c b _ u)

/-! ## C9 -/

/-- C9: flipping the sign of any single eigenvector of any Hessian sub-block
leaves every bond force constant and every angle force constant (both
branches) unchanged: eigenvectors enter only through absolute values of dot
products. -/
theorem force_constants_invariant_under_eigenvector_sign_flip (p q : ℕ) (i0 : Fin 3)
    (eigenvals : EigVals) (eigenvecs : EigVecs) (coords : ℕ → Vec3) (a b c : ℕ)
    (bond_lens : ℕ → ℕ → ℝ) (scalings : ℝ × ℝ) :
    force_constant_bond a b eigenvals (flip_eigenvec p q i0 eigenvecs) coords =
      force_constant_bond a b eigenvals eigenvecs coords ∧
    force_constant_angle a b c bond_lens eigenvals (flip_eigenvec p q i0 eigenvecs) coords
        scalings =
      force_constant_angle a b c bond_lens eigenvals eigenvecs coords scalings :=
  ⟨force_constant_bond_flip p q i0 eigenvals eigenvecs coords a b,
   force_constant_angle_flip p q i0 eigenvals eigenvecs coords a b c bond_lens scalings⟩

/-! ## C3 and its witness -/

/-- C3: every entry of `calculate_bonds`'s `k_b` is `vib_scaling ** 2` times
the real part of the mean of the two oriented `force_constant_bond` values,
and the per-ordering value is the projection formula
`-0.5 * sum(eigval_i * abs(dot(u_ab, eigvec_i)))`. -/
theorem calculate_bonds_reports_scaled_mean (bond_list : List (ℕ × ℕ)) (eigenvals : EigVals)
    (eigenvecs : EigVecs) (coords : ℕ → Vec3) (vib_scaling : ℝ) (pos : ℕ)
    (hpos : pos < bond_list.length) :
    (calculate_bonds_kb bond_list eigenvals eigenvecs coords vib_scaling).getD pos 0 =
      vib_scaling ^ 2 *
        ((force_constant_bond ((bond_list.getD pos (0, 0)).1 - 1)
            ((bond_list.getD pos (0, 0)).2 - 1) eigenvals eigenvecs coords +
          force_constant_bond ((bond_list.getD pos (0, 0)).2 - 1)
            ((bond_list.getD pos (0, 0)).1 - 1) eigenvals eigenvecs coords) / 2).re ∧
    force_constant_bond ((bond_list.getD pos (0, 0)).1 - 1)
        ((bond_list.getD pos (0, 0)).2 - 1) eigenvals eigenvecs coords =
      (-0.5) * ∑ i : Fin 3,
        eigenvals ((bond_list.getD pos (0, 0)).1 - 1) ((bond_list.getD pos (0, 0)).2 - 1) i *
          ((Complex.abs (dot_rc
              (vector_along_bond coords ((bond_list.getD pos (0, 0)).1 - 1)
                ((bond_list.getD pos (0, 0)).2 - 1))
              (fun r => eigenvecs ((bond_list.getD pos (0, 0)).1 - 1)
                ((bond_list.getD pos (0, 0)).2 - 1) r i)) : ℝ) : ℂ) := by
  constructor
  · have hlen : pos < (calculate_bonds_kb bond_list eigenvals eigenvecs coords
        vib_scaling).length := by
      unfold calculate_bonds_kb
      rw [List.length_map]
      exact hpos
    rw [List.getD_eq_getElem _ _ hlen, List.getD_eq_getElem _ _ hpos]
    unfold calculate_bonds_kb
    rw [List.getElem_map]
    rw [mul_comm]
  · rfl

/-- Witness for C3 at a one-bond molecule with concrete eigen-data. -/
theorem calculate_bonds_reports_scaled_mean_witness :
    (calculate_bonds_kb [(1, 2)] (fun _ _ _ => (-2 : ℂ))
        (fun _ _ r i => if r = i then 1 else 0)
        (fun n => if n = 0 then ⟨0, 0, 0⟩ else ⟨1, 0, 0⟩) 0.957).getD 0 0 =
      (0.957 : ℝ) ^ 2 *
        ((force_constant_bond ((([((1 : ℕ), (2 : ℕ))] : List (ℕ × ℕ)).getD 0 (0, 0)).1 - 1)
            ((([((1 : ℕ), (2 : ℕ))] : List (ℕ × ℕ)).getD 0 (0, 0)).2 - 1)
            (fun _ _ _ => (-2 : ℂ)) (fun _ _ r i => if r = i then 1 else 0)
            (fun n => if n = 0 then ⟨0, 0, 0⟩ else ⟨1, 0, 0⟩) +
          force_constant_bond ((([((1 : ℕ), (2 : ℕ))] : List (ℕ × ℕ)).getD 0 (0, 0)).2 - 1)
            ((([((1 : ℕ), (2 : ℕ))] : List (ℕ × ℕ)).getD 0 (0, 0)).1 - 1)
            (fun _ _ _ => (-2 : ℂ)) (fun _ _ r i => if r = i then 1 else 0)
            (fun n => if n = 0 then ⟨0, 0, 0⟩ else ⟨1, 0, 0⟩)) / 2).re :=
  (calculate_bonds_reports_scaled_mean [(1, 2)] (fun _ _ _ => (-2 : ℂ))
    (fun _ _ r i => if r = i then 1 else 0)
    (fun n => if n = 0 then ⟨0, 0, 0⟩ else ⟨1, 0, 0⟩) 0.957 0 (by decide)).1

/-! ## C1: branch routing of `force_constant_angle` -/

theorem coords_perp_vab01 : vector_along_bond coords_perp 0 1 = ⟨-1, 0, 0⟩ := by
  unfold vector_along_bond coords_perp Vec3.sub Vec3.sdiv Vec3.norm Vec3.dot
  norm_num [Real.sqrt_one]

theorem coords_perp_vab21 : vector_along_bond coords_perp 2 1 = ⟨0, -1, 0⟩ := by
  unfold vector_along_bond coords_perp Vec3.sub Vec3.sdiv Vec3.norm Vec3.dot
  norm_num [Real.sqrt_one]

theorem coords_perp_un : unit_vector_n (⟨0, -1, 0⟩ : Vec3) (⟨-1, 0, 0⟩ : Vec3) = ⟨0, 0, -1⟩ := by
  unfold unit_vector_n Vec3.cross Vec3.sdiv Vec3.norm Vec3.dot
  norm_num [Real.sqrt_one]

/-- C1: on a right-angle (plainly non-colinear) input the plane normal `u_n`
is the unit vector (0,0,-1) — not the zero vector — yet `force_constant_angle`
takes the 200-sample special-case branch, because the source's condition
`if sum(u_n):` runs the fallback whenever the *component sum* of `u_n` is
nonzero (truthy), not when `u_n` is the zero vector. -/
theorem force_constant_angle_special_case_on_perpendicular_bonds
    (bond_lens : ℕ → ℕ → ℝ) (eigenvals : EigVals) (eigenvecs : EigVecs) (scalings : ℝ × ℝ) :
    ((⟨0, 0, -1⟩ : Vec3) ≠ Vec3.zero) ∧
    unit_vector_n (vector_along_bond coords_perp 2 1) (vector_along_bond coords_perp 0 1) =
      ⟨0, 0, -1⟩ ∧
    force_constant_angle 0 1 2 bond_lens eigenvals eigenvecs coords_perp scalings =
      f_c_a_special_case (vector_along_bond coords_perp 0 1) (vector_along_bond coords_perp 2 1)
        (bond_lens 0 1, bond_lens 1 2) (eigenvals 0 1, eigenvals 2 1)
        (eigenvecs 0 1, eigenvecs 2 1) := by
  have hun : unit_vector_n (vector_along_bond coords_perp 2 1)
      (vector_along_bond coords_perp 0 1) = ⟨0, 0, -1⟩ := by
    rw [coords_perp_vab21, coords_perp_vab01]
    exact coords_perp_un
  refine ⟨?_, hun, ?_⟩
  · intro h
    rw [Vec3.zero] at h
    have := congrArg Vec3.z h
    norm_num at this
  · simp only [force_constant_angle]
    rw [if_neg]
    rw [hun]
    show Vec3.sum3 ⟨0, 0, -1⟩ ≠ 0
    norm_num [Vec3.sum3]

/-! ## C5: counterexample (not a uniform sweep of [0, 2π)) and amended form -/

/-- C5 counterexample: the 101st trial normal of the special case is built
from the integer angle `theta = 100` (radians), not from the uniform-sweep
angle `2 * pi * 100 / 200 = pi` of a sweep of [0, 2π); the two normals
differ (their z-components are `cos 100` and `-1`). -/
theorem special_case_sample_not_uniform_sweep : special_case_u_n 100 ≠ sweep_u_n 100 := by
  have hθ : 2 * Real.pi * ((100 : ℕ) : ℝ) / 200 = Real.pi := by push_cast; ring
  have hsw : (sweep_u_n 100).z = -1 := by
    show Real.cos (2 * Real.pi * ((100 : ℕ) : ℝ) / 200) = -1
    rw [hθ, Real.cos_pi]
  have hcos : Real.cos ((100 : ℕ) : ℝ) ≠ -1 := by
    intro hc
    have hsq : Real.sin ((100 : ℕ) : ℝ) ^ 2 = 0 := by
      have h1 := Real.sin_sq_add_cos_sq ((100 : ℕ) : ℝ)
      rw [hc] at h1
      nlinarith
    have hsin : Real.sin ((100 : ℕ) : ℝ) = 0 :=
      (pow_eq_zero_iff (by norm_num)).mp hsq
    rw [Real.sin_eq_zero_iff] at hsin
    obtain ⟨n, hn⟩ := hsin
    have hπl : (3.141592 : ℝ) < Real.pi := Real.pi_gt_d6
    have hπu : Real.pi < 3.15 := Real.pi_lt_d2
    have hπ0 : (0 : ℝ) < Real.pi := Real.pi_pos
    push_cast at hn
    rcases le_or_lt (n : ℝ) 31 with h31 | h31
    · nlinarith
    · have h32 : (32 : ℝ) ≤ (n : ℝ) := by
        have : (31 : ℤ) < n := by exact_mod_cast h31
        exact_mod_cast this
      nlinarith
  intro h
  apply hcos
  have hz := congrArg Vec3.z h
  rw [hsw] at hz
  exact hz

/-- C5 amended: the fallback's trial normals are
`(sin theta * cos theta, sin theta * sin theta, cos theta)` for the *integer*
loop indices `theta = 0, 1, ..., 199` (read as radians — not a uniform sweep
of [0, 2π)); the returned force constant is the arithmetic mean of the 200
trial force constants, and the returned equilibrium angle is
`acos(dot(u_ab, u_cb))` in radians. -/
theorem f_c_a_special_case_integer_sweep (u_ab u_cb : Vec3) (bond_lens : ℝ × ℝ)
    (eigenvals : (Fin 3 → ℂ) × (Fin 3 → ℂ))
    (eigenvecs : (Fin 3 → Fin 3 → ℂ) × (Fin 3 → Fin 3 → ℂ)) :
    ((List.range 200).map
        (special_case_trial_k u_ab u_cb bond_lens eigenvals eigenvecs)).length = 200 ∧
    (f_c_a_special_case u_ab u_cb bond_lens eigenvals eigenvecs).1 =
      ((List.range 200).map
          (special_case_trial_k u_ab u_cb bond_lens eigenvals eigenvecs)).sum /
        (((List.range 200).map
            (special_case_trial_k u_ab u_cb bond_lens eigenvals eigenvecs)).length : ℝ) ∧
    (f_c_a_special_case u_ab u_cb bond_lens eigenvals eigenvecs).2 =
      Real.arccos (u_ab.dot u_cb) ∧
    ∀ theta : ℕ, special_case_u_n theta =
      ⟨Real.sin theta * Real.cos theta, Real.sin theta * Real.sin theta, Real.cos theta⟩ := by
  have hlen : ((List.range 200).map
      (special_case_trial_k u_ab u_cb bond_lens eigenvals eigenvecs)).length = 200 := by
    rw [List.length_map, List.length_range]
  refine ⟨hlen, ?_, rfl, fun _ => rfl⟩
  rw [hlen]
  rfl

/-! ## C4: the scaling-factor scan over sorted rows

The source walks forwards and backwards from row `j` with two `while` loops
over the *consecutive* rows sharing the same first atom.  Because the rows
are sorted by first atom, those consecutive rows are exactly all other rows
with the same first atom. -/

theorem takeWhile_eq_filter_of_min (k : ℕ) (l : List Row)
    (hp : List.Pairwise rowLE l) (hmin : ∀ s ∈ l, k ≤ s.1) :
    l.takeWhile (fun s => s.1 == k) = l.filter (fun s => s.1 == k) := by
  induction l with
  | nil => rfl
  | cons s t ih =>
    rcases List.pairwise_cons.mp hp with ⟨hst, hpt⟩
    by_cases hs : s.1 = k
    · have htrue : (s.1 == k) = true := by simp [hs]
      rw [List.takeWhile_cons, List.filter_cons, htrue]
      simp only [if_true]
      rw [ih hpt (fun x hx => hmin x (List.mem_cons_of_mem s hx))]
    · have hk : k < s.1 :=
        lt_of_le_of_ne (hmin s (List.mem_cons_self s t)) (fun he => hs he.symm)
      have hfalse : (s.1 == k) = false := by simp [hs]
      rw [List.takeWhile_cons, List.filter_cons, hfalse]
      simp only [Bool.false_eq_true, if_false]
      symm
      rw [List.filter_eq_nil_iff]
      intro x hx
      have hle : s.1 ≤ x.1 := hst x hx
      simp only [beq_iff_eq]
      omega

theorem takeWhile_eq_filter_of_max (k : ℕ) (l : List Row)
    (hp : List.Pairwise (fun a b : Row => b.1 ≤ a.1) l) (hmax : ∀ s ∈ l, s.1 ≤ k) :
    l.takeWhile (fun s => s.1 == k) = l.filter (fun s => s.1 == k) := by
  induction l with
  | nil => rfl
  | cons s t ih =>
    rcases List.pairwise_cons.mp hp with ⟨hst, hpt⟩
    by_cases hs : s.1 = k
    · have htrue : (s.1 == k) = true := by simp [hs]
      rw [List.takeWhile_cons, List.filter_cons, htrue]
      simp only [if_true]
      rw [ih hpt (fun x hx => hmax x (List.mem_cons_of_mem s hx))]
    · have hk : s.1 < k :=
        lt_of_le_of_ne (hmax s (List.mem_cons_self s t)) hs
      have hfalse : (s.1 == k) = false := by simp [hs]
      rw [List.takeWhile_cons, List.filter_cons, hfalse]
      simp only [Bool.false_eq_true, if_false]
      symm
      rw [List.filter_eq_nil_iff]
      intro x hx
      have hle : x.1 ≤ s.1 := hst x hx
      simp only [beq_iff_eq]
      omega

/-- The two `while` scans of `scaling_factor`, on rows sorted by first atom,
collect exactly the other rows with the same first atom: the factor is `1`
when there are none, else `1` plus the mean of the squared projection dot
products against them. -/
theorem scaling_factor_sorted (coords : ℕ → Vec3) (i : ℕ) (rows : List Row)
    (hsort : List.Pairwise rowLE rows) (j : ℕ) (hj : j < rows.length) :
    scaling_factor coords i rows j =
      (if ((rows.eraseIdx j).filter
            (fun s => s.1 == (rows.get ⟨j, hj⟩).1)).length = 0 then 1
       else 1 +
        (((rows.eraseIdx j).filter (fun s => s.1 == (rows.get ⟨j, hj⟩).1)).map
          (fun s => |(row_upa coords i (rows.get ⟨j, hj⟩)).dot (row_upa coords i s)| ^ 2)).sum /
        ((((rows.eraseIdx j).filter
            (fun s => s.1 == (rows.get ⟨j, hj⟩).1)).length : ℕ) : ℝ)) := by
  have hgetD : rows.getD j (0, 0, 0) = rows.get ⟨j, hj⟩ := by
    rw [List.getD_eq_getElem _ _ hj, List.get_eq_getElem]
  have hdrop : rows.drop j = rows.get ⟨j, hj⟩ :: rows.drop (j + 1) := by
    rw [List.get_eq_getElem]
    exact List.drop_eq_getElem_cons hj
  have hsplit : rows.take j ++ rows.get ⟨j, hj⟩ :: rows.drop (j + 1) = rows := by
    rw [← hdrop, List.take_append_drop]
  have hPa : List.Pairwise rowLE
      (rows.take j ++ rows.get ⟨j, hj⟩ :: rows.drop (j + 1)) := by
    rw [hsplit]; exact hsort
  rcases List.pairwise_append.mp hPa with ⟨hp_take, hp_cons, hcross⟩
  rcases List.pairwise_cons.mp hp_cons with ⟨hj_le, hp_drop⟩
  have hmin_drop : ∀ y ∈ rows.drop (j + 1), (rows.get ⟨j, hj⟩).1 ≤ y.1 :=
    fun y hy => hj_le y hy
  have hmax_take : ∀ x ∈ rows.take j, x.1 ≤ (rows.get ⟨j, hj⟩).1 :=
    fun x hx => hcross x hx _ (List.mem_cons_self _ _)
  have hrev_pair : List.Pairwise (fun a b : Row => b.1 ≤ a.1) (rows.take j).reverse := by
    rw [List.pairwise_reverse]
    exact hp_take
  have hrev_max : ∀ s ∈ (rows.take j).reverse, s.1 ≤ (rows.get ⟨j, hj⟩).1 :=
    fun s hs => hmax_take s (List.mem_reverse.mp hs)
  simp only [scaling_factor, hgetD]
  rw [takeWhile_eq_filter_of_min _ _ hp_drop hmin_drop,
      takeWhile_eq_filter_of_max _ _ hrev_pair hrev_max,
      List.filter_reverse, List.eraseIdx_eq_take_drop_succ, List.filter_append]
  have hlen : ((rows.drop (j + 1)).filter (fun s => s.1 == (rows.get ⟨j, hj⟩).1) ++
      ((rows.take j).filter (fun s => s.1 == (rows.get ⟨j, hj⟩).1)).reverse).length =
      ((rows.take j).filter (fun s => s.1 == (rows.get ⟨j, hj⟩).1) ++
        (rows.drop (j + 1)).filter (fun s => s.1 == (rows.get ⟨j, hj⟩).1)).length := by
    rw [List.length_append, List.length_append, List.length_reverse, Nat.add_comm]
  have hsum : (((rows.drop (j + 1)).filter (fun s => s.1 == (rows.get ⟨j, hj⟩).1) ++
        ((rows.take j).filter (fun s => s.1 == (rows.get ⟨j, hj⟩).1)).reverse).map
        (fun s => |(row_upa coords i (rows.get ⟨j, hj⟩)).dot (row_upa coords i s)| ^ 2)).sum =
      (((rows.take j).filter (fun s => s.1 == (rows.get ⟨j, hj⟩).1) ++
        (rows.drop (j + 1)).filter (fun s => s.1 == (rows.get ⟨j, hj⟩).1)).map
        (fun s => |(row_upa coords i (rows.get ⟨j, hj⟩)).dot (row_upa coords i s)| ^ 2)).sum := by
    rw [List.map_append, List.map_append, List.sum_append, List.sum_append,
        List.map_reverse, List.sum_reverse]
    exact add_comm _ _
  rw [hlen, hsum]

/-- C4: for every row `(i, j)` of the sorted per-central-atom angle table,
the derived scaling factor is `1 +` the mean over the *other* rows sharing
the same central atom and the same flanking bond of the squared dot product
of the two in-plane projection vectors, and exactly `1` when no other row
shares that flanking bond (no division by zero). -/
theorem scaling_factor_one_plus_mean (angle_list : List (ℕ × ℕ × ℕ)) (coords : ℕ → Vec3)
    (i j : ℕ) (hj : j < (sorted_rows angle_list i).length) :
    scaling_factor coords i (sorted_rows angle_list i) j =
      (if (((sorted_rows angle_list i).eraseIdx j).filter
            (fun s => s.1 == ((sorted_rows angle_list i).get ⟨j, hj⟩).1)).length = 0 then 1
       else 1 +
        ((((sorted_rows angle_list i).eraseIdx j).filter
            (fun s => s.1 == ((sorted_rows angle_list i).get ⟨j, hj⟩).1)).map
          (fun s => |(row_upa coords i ((sorted_rows angle_list i).get ⟨j, hj⟩)).dot
            (row_upa coords i s)| ^ 2)).sum /
        (((((sorted_rows angle_list i).eraseIdx j).filter
            (fun s => s.1 == ((sorted_rows angle_list i).get ⟨j, hj⟩).1)).length : ℕ) : ℝ)) := by
  have hsort : List.Pairwise rowLE (sorted_rows angle_list i) :=
    List.sorted_insertionSort rowLE (central_rows angle_list i)
  exact scaling_factor_sorted coords i (sorted_rows angle_list i) hsort j hj

/-- Witness for C4: a single angle (1,2,3); the row `[0, 2, 0]` of central
atom 1 has no other row with the same flanking bond, so the factor is 1. -/
theorem scaling_factor_one_plus_mean_witness :
    scaling_factor (fun _ => ⟨0, 0, 0⟩) 1 (sorted_rows [(1, 2, 3)] 1) 0 =
      (if (((sorted_rows [(1, 2, 3)] 1).eraseIdx 0).filter
            (fun s => s.1 == ((sorted_rows [(1, 2, 3)] 1).get ⟨0, by decide⟩).1)).length = 0
       then 1
       else 1 +
        ((((sorted_rows [(1, 2, 3)] 1).eraseIdx 0).filter
            (fun s => s.1 == ((sorted_rows [(1, 2, 3)] 1).get ⟨0, by decide⟩).1)).map
          (fun s => |(row_upa (fun _ => ⟨0, 0, 0⟩) 1
              ((sorted_rows [(1, 2, 3)] 1).get ⟨0, by decide⟩)).dot
            (row_upa (fun _ => ⟨0, 0, 0⟩) 1 s)| ^ 2)).sum /
        (((((sorted_rows [(1, 2, 3)] 1).eraseIdx 0).filter
            (fun s => s.1 == ((sorted_rows [(1, 2, 3)] 1).get ⟨0, by decide⟩).1)).length : ℕ) : ℝ)) :=
  scaling_factor_one_plus_mean [(1, 2, 3)] (fun _ => ⟨0, 0, 0⟩) 1 0 (by decide)

/-! ## C2: the aliased scaling-factor list of `calculate_angles`

Concrete star molecule: angles (1,2,3) and (1,2,4) at `coords_star`. -/

theorem star_vab01 : vector_along_bond coords_star 0 1 = ⟨-1, 0, 0⟩ := by
  unfold vector_along_bond coords_star Vec3.sub Vec3.sdiv Vec3.norm Vec3.dot
  norm_num [Real.sqrt_one]

theorem star_vab21 : vector_along_bond coords_star 2 1 = ⟨0, -1, 0⟩ := by
  unfold vector_along_bond coords_star Vec3.sub Vec3.sdiv Vec3.norm Vec3.dot
  norm_num [Real.sqrt_one]

theorem star_vab31 : vector_along_bond coords_star 3 1 =
    ⟨-(Real.sqrt 2)⁻¹, -(Real.sqrt 2)⁻¹, 0⟩ := by
  unfold vector_along_bond coords_star Vec3.sub Vec3.sdiv Vec3.norm Vec3.dot
  norm_num
  rw [neg_div, one_div]

theorem un_pa_eval : unit_vector_n (⟨0, 0, -1⟩ : Vec3) (⟨-1, 0, 0⟩ : Vec3) = ⟨0, 1, 0⟩ := by
  unfold unit_vector_n Vec3.cross Vec3.sdiv Vec3.norm Vec3.dot
  norm_num [Real.sqrt_one]

theorem un_sqrt2 : unit_vector_n (⟨-(Real.sqrt 2)⁻¹, -(Real.sqrt 2)⁻¹, 0⟩ : Vec3)
    (⟨-1, 0, 0⟩ : Vec3) = ⟨0, 0, -1⟩ := by
  have hs2 : (0 : ℝ) < Real.sqrt 2 := Real.sqrt_pos.mpr (by norm_num)
  have hs : (0 : ℝ) < (Real.sqrt 2)⁻¹ := inv_pos.mpr hs2
  have hcross : Vec3.cross ⟨-(Real.sqrt 2)⁻¹, -(Real.sqrt 2)⁻¹, 0⟩ ⟨-1, 0, 0⟩ =
      ⟨0, 0, -(Real.sqrt 2)⁻¹⟩ := by
    unfold Vec3.cross
    norm_num
  have hnorm : Vec3.norm ⟨0, 0, -(Real.sqrt 2)⁻¹⟩ = (Real.sqrt 2)⁻¹ := by
    unfold Vec3.norm Vec3.dot
    have harg : (0 : ℝ) * 0 + 0 * 0 + -(Real.sqrt 2)⁻¹ * -(Real.sqrt 2)⁻¹ =
        (Real.sqrt 2)⁻¹ * (Real.sqrt 2)⁻¹ := by ring
    rw [harg, Real.sqrt_mul_self hs.le]
  unfold unit_vector_n
  rw [hcross, hnorm]
  unfold Vec3.sdiv
  norm_num [div_self hs.ne']

theorem star_upa012 : u_pa_from_angles 0 1 2 coords_star = ⟨0, 1, 0⟩ := by
  simp only [u_pa_from_angles]
  rw [star_vab21, star_vab01, coords_perp_un]
  exact un_pa_eval

theorem star_upa013 : u_pa_from_angles 0 1 3 coords_star = ⟨0, 1, 0⟩ := by
  simp only [u_pa_from_angles]
  rw [star_vab31, star_vab01, un_sqrt2]
  exact un_pa_eval

theorem star_rows0 : sorted_rows [(1, 2, 3), (1, 2, 4)] 0 = [] := by decide

theorem star_rows1 : sorted_rows [(1, 2, 3), (1, 2, 4)] 1 =
    [(0, 2, 0), (0, 3, 1), (2, 0, 0), (3, 0, 1)] := by decide

theorem star_rows2 : sorted_rows [(1, 2, 3), (1, 2, 4)] 2 = [] := by decide

theorem star_rows3 : sorted_rows [(1, 2, 3), (1, 2, 4)] 3 = [] := by decide

theorem star_sf0 : scaling_factor coords_star 1
    [(0, 2, 0), (0, 3, 1), (2, 0, 0), (3, 0, 1)] 0 = 2 := by
  show (1 : ℝ) +
      (|(row_upa coords_star 1 ((0 : ℕ), (2 : ℕ), (0 : ℕ))).dot
          (row_upa coords_star 1 ((0 : ℕ), (3 : ℕ), (1 : ℕ)))| ^ 2 + 0) / (((1 : ℕ) : ℝ)) = 2
  rw [show row_upa coords_star 1 ((0 : ℕ), (2 : ℕ), (0 : ℕ)) =
        u_pa_from_angles 0 1 2 coords_star from rfl,
      show row_upa coords_star 1 ((0 : ℕ), (3 : ℕ), (1 : ℕ)) =
        u_pa_from_angles 0 1 3 coords_star from rfl,
      star_upa012, star_upa013]
  unfold Vec3.dot
  norm_num

theorem star_sf1 : scaling_factor coords_star 1
    [(0, 2, 0), (0, 3, 1), (2, 0, 0), (3, 0, 1)] 1 = 2 := by
  show (1 : ℝ) +
      (|(row_upa coords_star 1 ((0 : ℕ), (3 : ℕ), (1 : ℕ))).dot
          (row_upa coords_star 1 ((0 : ℕ), (2 : ℕ), (0 : ℕ)))| ^ 2 + 0) / (((1 : ℕ) : ℝ)) = 2
  rw [show row_upa coords_star 1 ((0 : ℕ), (2 : ℕ), (0 : ℕ)) =
        u_pa_from_angles 0 1 2 coords_star from rfl,
      show row_upa coords_star 1 ((0 : ℕ), (3 : ℕ), (1 : ℕ)) =
        u_pa_from_angles 0 1 3 coords_star from rfl,
      star_upa012, star_upa013]
  unfold Vec3.dot
  norm_num

theorem star_sf2 : scaling_factor coords_star 1
    [(0, 2, 0), (0, 3, 1), (2, 0, 0), (3, 0, 1)] 2 = 1 := rfl

theorem star_sf3 : scaling_factor coords_star 1
    [(0, 2, 0), (0, 3, 1), (2, 0, 0), (3, 0, 1)] 3 = 1 := rfl

theorem star_shared : shared_scaling_list [(1, 2, 3), (1, 2, 4)] coords_star 4 =
    [scaling_factor coords_star 1 [(0, 2, 0), (0, 3, 1), (2, 0, 0), (3, 0, 1)] 0,
     scaling_factor coords_star 1 [(0, 2, 0), (0, 3, 1), (2, 0, 0), (3, 0, 1)] 1,
     scaling_factor coords_star 1 [(0, 2, 0), (0, 3, 1), (2, 0, 0), (3, 0, 1)] 2,
     scaling_factor coords_star 1 [(0, 2, 0), (0, 3, 1), (2, 0, 0), (3, 0, 1)] 3] := by
  simp only [shared_scaling_list]
  rw [(by decide : List.range 4 = [0, 1, 2, 3])]
  simp only [List.flatMap_cons, List.flatMap_nil, star_rows0, star_rows1, star_rows2, star_rows3]
  norm_num
  rfl

/-- C2: because `scaling_factors_angles_list = [[]] * len(angle_list)` makes
every sublist alias one shared list, the `scalings` passed to
`force_constant_angle` are the first two entries of the shared list — here
`(2, 2)` for *every* angle — while the factors actually derived for angle 1
(the angle (1,2,4)) are `[2, 1]`: the second factor the code uses is not the
one derived for that angle's flanking bond. -/
theorem calculate_angles_passes_shared_scalings :
    code_scalings [(1, 2, 3), (1, 2, 4)] coords_star 4 = (2, 2) ∧
    own_scalings [(1, 2, 3), (1, 2, 4)] coords_star 4 1 = [2, 1] ∧
    (code_scalings [(1, 2, 3), (1, 2, 4)] coords_star 4).2 ≠
      (own_scalings [(1, 2, 3), (1, 2, 4)] coords_star 4 1).getD 1 0 := by
  have hcode : code_scalings [(1, 2, 3), (1, 2, 4)] coords_star 4 = (2, 2) := by
    simp only [code_scalings, star_shared]
    rw [star_sf0, star_sf1]
    rfl
  have hown : own_scalings [(1, 2, 3), (1, 2, 4)] coords_star 4 1 = [2, 1] := by
    simp only [own_scalings]
    rw [(by decide : List.range 4 = [0, 1, 2, 3])]
    simp only [List.flatMap_cons, List.flatMap_nil, star_rows0, star_rows1, star_rows2,
      star_rows3]
    norm_num [List.filterMap, List.getD]
    exact ⟨star_sf1, star_sf3⟩
  refine ⟨hcode, hown, ?_⟩
  rw [hcode, hown]
  norm_num [List.getD]

end QUBEKit
